import Mathlib

/-!
# Verification of the LoopExpander analysis core

A shallow embedding of the analysis engine of the LoopExpander backend
(`src/backend/src/analysis/...`), together with proofs and refutations of the
spec's testable properties.

Modelling conventions:
* Python floats are modelled as `ℚ` (exact rational arithmetic).  All constants
  appearing in the source (`0.075`, `0.3`, `1.5`, ...) are exact decimals, so
  the rational embedding agrees with the float code wherever the comparisons
  in question are not within ulp distance of a threshold; every concrete
  counterexample below violates its claim by a wide margin (≥ 0.1), far above
  float rounding error.
* Signal-processing primitives that call into `librosa`/`scipy`/`sklearn`
  (STFT novelty curves, peak picking, transient-density curves, cosine
  distance, `np.exp`, DBSCAN labelling) are taken as *inputs* of the embedded
  functions: the embedding receives the curves / labels / similarity oracle
  those libraries would produce and models everything the repository's own
  code does with them.  All theorems quantify over these inputs, so they hold
  for the actual library outputs in particular.
* Python exceptions are modelled with `Except String`.
-/

namespace LoopExpander

/-- Python `int(x)` truncates toward zero. -/
def pyInt (q : ℚ) : ℤ := if 0 ≤ q then ⌊q⌋ else ⌈q⌉

/-- Python `abs(x)` (an `ite` so that concrete inputs evaluate by `simp`). -/
def pyAbs (q : ℚ) : ℚ := if q < 0 then -q else q

/-- `np.mean` of a list of rationals (`0` on the empty list never arises at
call sites that guard for emptiness; numpy would return NaN there). -/
def listMean (l : List ℚ) : ℚ := l.sum / l.length

/-! ## Region model (`src/backend/src/models/region.py`)

`Region.__post_init__` validates `start ≥ 0 < end - start` and nonempty
`id`/`name`; the detector pipeline below only ever constructs regions from
strictly increasing boundaries, which is proved rather than checked. -/

/-- `Region` dataclass.  `end` is a Lean keyword, so the field is `stop`. -/
structure Region where
  id : String
  name : String
  type : String
  start : ℚ
  stop : ℚ
  motifs : List String
  fills : List String
  callResponse : List String
deriving Repr, DecidableEq

/-- `Region.duration` property. -/
def Region.duration (r : Region) : ℚ := r.stop - r.start

/-! ## Region detection
(`src/backend/src/analysis/region_detector/region_detector.py` and
`priors.py`).  Configuration constants from `src/backend/src/config.py`
(default environment). -/

def MIN_BOUNDARY_GAP_SEC : ℚ := 4.0

def MIN_REGION_DURATION_SEC : ℚ := 8.0

/-- `priors.estimate_initial_boundaries`.  Raises `ValueError` for a
non-positive duration; otherwise returns the five duration-relative prior
boundaries, sorted, de-duplicated and filtered to `[5%, 95%]` of the
duration.  The `bpm` argument is unused by the source heuristic. -/
def estimate_initial_boundaries (duration_seconds : ℚ) (_bpm : ℚ) :
    Except String (List ℚ) :=
  if duration_seconds ≤ 0 then
    .error "Duration must be positive"
  else
    let boundaries : List ℚ :=
      [duration_seconds * 0.075, duration_seconds * 0.30,
       duration_seconds * 0.50, duration_seconds * 0.675,
       duration_seconds * 0.825]
    -- Python `sorted(set(boundaries))`: sort, drop exact duplicates.
    let boundaries := (boundaries.insertionSort (· ≤ ·)).dedup
    let min_boundary := duration_seconds * 0.05
    let max_boundary := duration_seconds * 0.95
    .ok (boundaries.filter fun b =>
      if min_boundary ≤ b ∧ b ≤ max_boundary then true else false)

/-- `_snap_prior_to_nearest_peak`: nearest peak within `window_seconds`,
`prior_time` itself if none.  Python's `min(..., key=...)` keeps the first
minimiser, as does the fold with a strict comparison. -/
def snap_prior_to_nearest_peak (prior_time : ℚ) (peak_times : List ℚ)
    (window_seconds : ℚ) : ℚ :=
  let nearby := peak_times.filter fun p =>
    if pyAbs (p - prior_time) ≤ window_seconds then true else false
  match nearby with
  | [] => prior_time
  | q :: qs =>
      qs.foldl (fun best p =>
        if pyAbs (p - prior_time) < pyAbs (best - prior_time) then p else best) q

/-- Tail of `_deduplicate_boundaries`: keep `b` iff it is at least `min_sep`
after the previously kept boundary `last`. -/
def dedupGo (min_sep : ℚ) (last : ℚ) : List ℚ → List ℚ
  | [] => []
  | b :: rest =>
      if min_sep ≤ b - last then b :: dedupGo min_sep b rest
      else dedupGo min_sep last rest

/-- `_deduplicate_boundaries`: sort, then drop boundaries closer than
`min_sep` to the last kept one (the first element is always kept). -/
def deduplicate_boundaries (min_sep : ℚ) (boundaries : List ℚ) : List ℚ :=
  match boundaries.insertionSort (· ≤ ·) with
  | [] => []
  | b :: rest => b :: dedupGo min_sep b rest

/-- Step 5 of `detect_regions`: peaks farther than 5 s from every prior whose
novelty-curve value at `int(peak * sr / hop_length)` exceeds `0.5`
(`hop_length = 512`).  Peak times produced by `_find_novelty_peaks` are
nonnegative frame times, so Python `int()` is `⌊·⌋` and indexing is
nonnegative here. -/
def strong_peaks (peak_times prior_boundaries : List ℚ) (novelty : List ℚ)
    (sr : ℕ) : List ℚ :=
  peak_times.filter fun peak =>
    (prior_boundaries.all fun prior => if 5 < pyAbs (peak - prior) then true else false) &&
      (let peak_frame := (⌊peak * sr / 512⌋).toNat
       if peak_frame < novelty.length ∧ (1 : ℚ)/2 < novelty.getD peak_frame 0
       then true else false)

/-- Consecutive-boundary pairs (step 7 of `detect_regions`). -/
def regionTuples : List ℚ → List (ℚ × ℚ)
  | [] => []
  | [_] => []
  | a :: b :: rest => (a, b) :: regionTuples (b :: rest)

/-- Step 8 of `detect_regions`: temporary `Region` objects, id
`region_{i+1}` (the Python `{i+1:02d}` zero-padding is not modelled). -/
def mkTempRegions : ℕ → List (ℚ × ℚ) → List Region
  | _, [] => []
  | i, (s, e) :: rest =>
      { id := "region_" ++ toString (i + 1), name := "Temp", type := "temp",
        start := s, stop := e, motifs := [], fills := [], callResponse := [] }
        :: mkTempRegions (i + 1) rest

/-- Forward merge in `enforce_min_region_duration`: extend the *next* region's
start back to the current one's start. -/
def mergeForward (current next : Region) : Region :=
  { id := next.id, name := next.name, type := next.type,
    start := current.start, stop := next.stop,
    motifs := current.motifs ++ next.motifs,
    fills := current.fills ++ next.fills,
    callResponse := current.callResponse ++ next.callResponse }

/-- Backward merge in `enforce_min_region_duration`: extend the *previous*
region's end forward to the current one's end. -/
def mergeBackward (prev current : Region) : Region :=
  { id := prev.id, name := prev.name, type := prev.type,
    start := prev.start, stop := current.stop,
    motifs := prev.motifs ++ current.motifs,
    fills := prev.fills ++ current.fills,
    callResponse := prev.callResponse ++ current.callResponse }

/-- The `while` loop of `enforce_min_region_duration`.  `acc` is the `merged`
list in reverse (its head is `merged[-1]`).  A short region merges into the
following one when it exists (`i += 2`), else into the previous merged one;
a single short region with nothing to merge into is kept as is. -/
def enforceFirstPass (min_duration : ℚ) (acc : List Region) :
    List Region → List Region
  | [] => acc.reverse
  | current :: rest =>
      if current.duration < min_duration then
        match rest with
        | next :: rest' =>
            enforceFirstPass min_duration (mergeForward current next :: acc) rest'
        | [] =>
            match acc with
            | prev :: acc' =>
                enforceFirstPass min_duration (mergeBackward prev current :: acc') []
            | [] => enforceFirstPass min_duration (current :: acc) []
      else enforceFirstPass min_duration (current :: acc) rest

/-- The final pass of `enforce_min_region_duration`.  It scans `merged` left
to right; at the first region that is short *and not last* it emits the
forward merge, discards the rest of the scan (the Python loop `break`s, so
`final_merged` ends at the merge) and reports whether the recursion guard
`len(final_merged) < len(merged)` holds — which, since `final_merged` has
`i+1` elements and the post-`break` `merged` has one fewer than before, is
exactly "there was at least one region after the merged pair". -/
def enforceFinalPass (min_duration : ℚ) : List Region → List Region × Bool
  | [] => ([], false)
  | [r] => ([r], false)
  | r :: next :: rest =>
      if r.duration < min_duration then
        ([mergeForward r next], !rest.isEmpty)
      else
        let (f, b) := enforceFinalPass min_duration (next :: rest)
        (r :: f, b)

/-- The recursion of `enforce_min_region_duration`, fuelled.  The Python
function recurses on a strictly shorter list whenever the final pass shrank
it, so `fuel = regions.length` (supplied by `enforce_min_region_duration`)
always suffices and the out-of-fuel branch is unreachable. -/
def enforceGo (min_duration : ℚ) : ℕ → List Region → List Region
  | 0, regions => regions
  | fuel + 1, regions =>
      if regions.isEmpty then []
      else
        match enforceFinalPass min_duration (enforceFirstPass min_duration [] regions) with
        | (f, true) => enforceGo min_duration fuel f
        | (f, false) => f

/-- `enforce_min_region_duration` from `region_detector.py`. -/
def enforce_min_region_duration (regions : List Region) (min_duration : ℚ) :
    List Region := enforceGo min_duration regions.length regions

/-- Reassign ids `region_{i+1}` in final order (step 13 of `detect_regions`;
zero-padding not modelled). -/
def reassignIds : ℕ → List Region → List Region
  | _, [] => []
  | i, r :: rest =>
      { r with id := "region_" ++ toString (i + 1) } :: reassignIds (i + 1) rest

/-- Steps 4–6 of `detect_regions`: snap each prior to the nearest peak
within 5 s, add strong peaks far from all priors, deduplicate with the
minimum gap, sort (a no-op, the list is already sorted), and force
boundaries at 0 / track end when the nearest one is more than 1 s away. -/
def detect_regions_boundaries (duration : ℚ) (prior_boundaries peak_times novelty : List ℚ)
    (sr : ℕ) : List ℚ :=
  let snapped := prior_boundaries.map
    (fun prior => snap_prior_to_nearest_peak prior peak_times 5)
  let all_boundaries := snapped ++ strong_peaks peak_times prior_boundaries novelty sr
  let boundaries := deduplicate_boundaries MIN_BOUNDARY_GAP_SEC all_boundaries
  let boundaries := boundaries.insertionSort (· ≤ ·)
  let boundaries :=
    match boundaries with
    | [] => [(0 : ℚ)]
    | b :: _ => if 1 < b then 0 :: boundaries else boundaries
  match boundaries.getLast? with
  | none => boundaries ++ [duration]
  | some last => if last < duration - 1 then boundaries ++ [duration] else boundaries

/-- `detect_regions`, from the boundary-assembly stage on (steps 3–9 and 13
of the source).  The novelty curve and its picked peaks (steps 1–2, STFT
processing via `librosa`/`scipy`) are inputs: `peak_times` is the output of
`_find_novelty_peaks` and `novelty` the curve it was picked from.  Steps
10–12 (`compute_region_stats` / `assign_region_labels`, driven by the RMS
envelope of the audio) mutate only the `name`/`type` fields of the already
final region list and never its length, order or `start`/`stop` fields, so
they are omitted from this geometric embedding; every claim below concerns
only geometry (`start`/`stop`/order/count). -/
def detect_regions (duration : ℚ) (bpm : ℚ) (peak_times : List ℚ)
    (novelty : List ℚ) (sr : ℕ) : Except String (List Region) :=
  (estimate_initial_boundaries duration bpm).map fun prior_boundaries =>
    let boundaries := detect_regions_boundaries duration prior_boundaries
      peak_times novelty sr
    -- Steps 7–9: regions between boundaries, minimum-duration enforcement.
    let temp_regions := mkTempRegions 0 (regionTuples boundaries)
    let regions := enforce_min_region_duration temp_regions MIN_REGION_DURATION_SEC
    -- Step 13: ids reassigned in final order.
    reassignIds 0 regions

/-! ## Motif sensitivity configuration
(`src/backend/src/analysis/motif_detector/config.py`). -/

/-- `clamp_sensitivity(value, min_val=0.05, max_val=0.95)`:
`max(min_val, min(max_val, value))`. -/
def clamp_sensitivity (value : ℚ) (min_val : ℚ := 0.05) (max_val : ℚ := 0.95) : ℚ :=
  max min_val (min max_val value)

/-! ## Bars/seconds conversion
(`motif_detector/motif_detector.py` and `subregions/service.py`). -/

/-- `bars_to_seconds`: `(bars * 4 / bpm) * 60` (4/4 time signature). -/
def bars_to_seconds (bars : ℚ) (bpm : ℚ) : ℚ :=
  let beats_per_bar : ℚ := 4
  let beats := bars * beats_per_bar
  (beats / bpm) * 60

/-- `seconds_to_bars` (from `subregions/service.py`):
`((seconds * bpm) / 60) / 4`. -/
def seconds_to_bars (seconds : ℚ) (bpm : ℚ) : ℚ :=
  let beats_per_bar : ℚ := 4
  let beats := (seconds * bpm) / 60
  beats / beats_per_bar

/-! ## Motif clustering
(`motif_detector/motif_detector.py`, `_cluster_motifs`).

Feature extraction (librosa MFCCs) and the DBSCAN run on standardised
features (sklearn `StandardScaler` + `DBSCAN(eps, min_samples=2)`) are
external numerics; the embedding receives the DBSCAN cluster labels
(`-1` = noise) as an input and models everything `_cluster_motifs` itself
does with them: group-id assignment, the `groups` dict bookkeeping, centroid
computation on the *raw* features, exemplar selection by `np.argmin` of
Euclidean centroid distances and `is_variation` flagging. -/

/-- `MotifInstance` dataclass (the `region_ids` field, populated by a later
alignment pass that no claim touches, is omitted). -/
structure MotifInstance where
  id : String
  stem_role : String
  start_time : ℚ
  end_time : ℚ
  features : List ℚ
  group_id : Option String := none
  is_variation : Bool := false
deriving Repr, DecidableEq

/-- `MotifGroup` dataclass (without the optional label). -/
structure MotifGroup where
  id : String
  members : List MotifInstance
deriving Repr, DecidableEq

/-- Pointwise mean of equal-length feature vectors (`np.mean(..., axis=0)`). -/
def centroidOf : List (List ℚ) → List ℚ
  | [] => []
  | f :: fs => ((fs.foldl (fun a b => a.zipWith (· + ·) b) f).map
      fun x => x / ((f :: fs).length : ℚ))

/-- Squared Euclidean distance between feature vectors.  `np.linalg.norm` is
its square root; as `√` is strictly monotone, `np.argmin` over norms equals
the argmin over squared norms, so exemplar selection is modelled on squares
(which keeps the embedding inside `ℚ`). -/
def distSq (u v : List ℚ) : ℚ := ((u.zipWith (fun a b => (a - b) ^ 2) v).sum)

/-- The running state of `np.argmin`: best index, best value, next index.
Replacement only on a strict decrease keeps the first minimum, as numpy
does. -/
def argminStep (best : ℕ × ℚ × ℕ) (d : ℚ) : ℕ × ℚ × ℕ :=
  let (bi, bd, i) := best
  if d < bd then (i, d, i + 1) else (bi, bd, i + 1)

/-- `np.argmin`: index of the first minimum. -/
def pyArgmin (l : List ℚ) : ℕ :=
  match l with
  | [] => 0
  | x :: xs => (xs.foldl argminStep (0, x, 1)).1

/-- `groups[group_id] = [instance]` — dict *overwrite* (used for noise
points); an existing key keeps its position, a new key is appended. -/
def assocSet (groups : List (String × List ℕ)) (key : String) (value : List ℕ) :
    List (String × List ℕ) :=
  match groups with
  | [] => [(key, value)]
  | (k, v) :: rest =>
      if k = key then (k, value) :: rest else (k, v) :: assocSet rest key value

/-- `groups[group_id].append(instance)` with
`if group_id not in groups: groups[group_id] = []` first. -/
def assocAppend (groups : List (String × List ℕ)) (key : String) (idx : ℕ) :
    List (String × List ℕ) :=
  match groups with
  | [] => [(key, [idx])]
  | (k, v) :: rest =>
      if k = key then (k, v ++ [idx]) :: rest else (k, v) :: assocAppend rest key idx

/-- One step of the group-building loop of `_cluster_motifs`, for the pair
`(idx, label)`: a noise point (`label = -1`) gets the fresh-by-intention id
`motif_group_{len(groups)}` and *overwrites* any existing entry of that name
(`groups[group_id] = [instance]`); a clustered point appends to (or creates)
`motif_group_{label}`.  The per-index assignment record models the
`instance.group_id = group_id` mutation. -/
def buildStep (pre : String) (st : List (String × List ℕ) × List (ℕ × String))
    (p : ℕ × ℤ) : List (String × List ℕ) × List (ℕ × String) :=
  let (groups, assigns) := st
  let (idx, label) := p
  if label = -1 then
    let group_id := pre ++ "motif_group_" ++ toString groups.length
    (assocSet groups group_id [idx], assigns ++ [(idx, group_id)])
  else
    let group_id := pre ++ "motif_group_" ++ toString label
    (assocAppend groups group_id idx, assigns ++ [(idx, group_id)])

/-- The group-building loop of `_cluster_motifs`: fold over `(index, label)`
pairs (the indices of `enumerate(zip(instances, labels))`, which coincide
with `labels.enum` since the caller passes equal-length lists), producing
the `groups` dict (as an insertion-ordered association list of member
indices) and the per-index group-id assignment. -/
def buildGroups (pre : String) (labels : List ℤ) :
    List (String × List ℕ) × List (ℕ × String) :=
  labels.enum.foldl (buildStep pre) ([], [])

/-- Features of instance `idx` (indices produced by `buildGroups` are always
in range). -/
def featOf (instances : List MotifInstance) (idx : ℕ) : List ℚ :=
  ((instances.get? idx).map (·.features)).getD []

/-- `exemplar_idx = np.argmin(distances_to_centroid)` for one group's member
index list: the first minimiser of the centroid distance. -/
def groupExemplar (instances : List MotifInstance) (idxs : List ℕ) : ℕ :=
  pyArgmin (idxs.map fun i =>
    distSq (featOf instances i) (centroidOf (idxs.map (featOf instances))))

/-- The variation-marking loop of `_cluster_motifs`: for each group, the
member indices *other than* the exemplar (first minimiser of the centroid
distance).  Mutating `member.is_variation = True` in Python is modelled by
collecting the flagged indices. -/
def variationIdxs (instances : List MotifInstance)
    (groups : List (String × List ℕ)) : List ℕ :=
  groups.flatMap fun g =>
    g.2.enum.filterMap fun p =>
      if p.1 = groupExemplar instances g.2 then none else some p.2

/-- The `instance.group_id = group_id` and `member.is_variation = True`
mutations applied to the instance list (index `i` gets the group id of the
assignment record for `i`, and the variation flag if `i` was flagged). -/
def clusterAssign (instances : List MotifInstance) (assigns : List (ℕ × String))
    (flagged : List ℕ) : List MotifInstance :=
  instances.enum.map fun p =>
    { p.2 with
      group_id := match (assigns.find? fun a => a.1 = p.1) with
                  | some a => some a.2
                  | none => p.2.group_id
      is_variation := p.2.is_variation || flagged.contains p.1 }

/-- The `MotifGroup`-building loop: one group per non-empty `groups` entry,
whose members alias the (mutated) instances, looked up by index. -/
def clusterGroups (finalInstances : List MotifInstance)
    (groups : List (String × List ℕ)) : List MotifGroup :=
  groups.filterMap fun g =>
    if g.2.isEmpty then none
    else some { id := g.1,
                members := g.2.filterMap fun i => finalInstances.get? i }

/-- `_cluster_motifs(instances, sensitivity, stem_role)` with the DBSCAN
labelling as input (the `sensitivity` argument only shapes `eps`, which only
feeds DBSCAN, hence the oracle).  Returns the updated instance list and the
`MotifGroup` list; group members alias the returned (updated) instances just
as the Python objects do. -/
def cluster_motifs (instances : List MotifInstance) (labels : List ℤ)
    (stem_role : String) : List MotifInstance × List MotifGroup :=
  if instances.isEmpty then (instances, [])
  else
    let pre := stem_role ++ "_"
    let gb := buildGroups pre labels
    let finalInstances := clusterAssign instances gb.2 (variationIdxs instances gb.1)
    (finalInstances, clusterGroups finalInstances gb.1)

/-- The stem roles the motif pipeline clusters (the `Literal` type of
`MotifInstance.stem_role` / the keys of `stems_dict` in `detect_motifs`). -/
def motifStemRoles : List String :=
  ["drums", "bass", "vocals", "instruments", "full_mix"]

/-! ## Call-response detection
(`src/backend/src/analysis/call_response_detector/call_response_detector.py`).

`_compute_similarity` (scipy cosine distance, NaN-guarded and clamped to
`[0,1]`) and `np.exp` are external numerics; the embedding takes them as
function inputs `sim` and `expFn` and every theorem quantifies over them. -/

/-- `CallResponseConfig` with the source's defaults (the `__post_init__`
`None → [0.5, 1, 2, 4]` grid defaulting is folded into the field default). -/
structure CallResponseConfig where
  min_offset_bars : ℚ := 0.5
  max_offset_bars : ℚ := 4.0
  min_similarity : ℚ := 0.7
  preferred_rhythmic_grid : List ℚ := [0.5, 1.0, 2.0, 4.0]
  max_responses_per_call : Option ℕ := none
  min_confidence : ℚ := 0.5
  use_full_mix : Bool := false
deriving Repr

/-- `CallResponsePair` dataclass. -/
structure CallResponsePair where
  id : String
  from_motif_id : String
  to_motif_id : String
  from_stem_role : String
  to_stem_role : String
  from_time : ℚ
  to_time : ℚ
  time_offset : ℚ
  confidence : ℚ
  region_id : Option String := none
deriving Repr, DecidableEq

/-- `CallResponsePair.is_inter_stem` property. -/
def CallResponsePair.is_inter_stem (p : CallResponsePair) : Bool :=
  p.from_stem_role != p.to_stem_role

/-- `_compute_rhythmic_alignment_score` with `tolerance_bars = 0.1`:
`1.0` within tolerance of a grid point, else `exp(-distance/0.5)` clamped to
`[0,1]`; `0.5` for an empty grid. -/
def compute_rhythmic_alignment_score (expFn : ℚ → ℚ) (offset_bars : ℚ)
    (preferred_grid : List ℚ) : ℚ :=
  match preferred_grid with
  | [] => 0.5
  | g :: gs =>
      let min_distance :=
        gs.foldl (fun m gp => min m (pyAbs (offset_bars - gp))) (pyAbs (offset_bars - g))
      if min_distance ≤ 0.1 then 1
      else max 0 (min 1 (expFn (-min_distance / 0.5)))

/-- `_compute_confidence`: `0.7 * similarity + 0.3 * rhythmic_score`. -/
def compute_confidence (expFn : ℚ → ℚ) (similarity offset_bars : ℚ)
    (config : CallResponseConfig) : ℚ :=
  0.7 * similarity +
    0.3 * compute_rhythmic_alignment_score expFn offset_bars config.preferred_rhythmic_grid

/-- `_find_potential_responses`: motifs other than the call whose start-time
offset from the call lies in `[min_offset_seconds, max_offset_seconds]`,
paired with that offset. -/
def find_potential_responses (call_motif : MotifInstance)
    (all_motifs : List MotifInstance) (min_offset_seconds max_offset_seconds : ℚ) :
    List (MotifInstance × ℚ) :=
  all_motifs.filterMap fun response_motif =>
    if response_motif.id = call_motif.id then none
    else
      let offset_seconds := response_motif.start_time - call_motif.start_time
      if min_offset_seconds ≤ offset_seconds ∧ offset_seconds ≤ max_offset_seconds then
        some (response_motif, offset_seconds)
      else none

/-- `_find_region_for_pair`: id of the first region containing the midpoint
of `(from_time, to_time)`. -/
def find_region_for_pair (from_time to_time : ℚ) (regions : List Region) :
    Option String :=
  let midpoint := (from_time + to_time) / 2
  (regions.find? fun r =>
    if r.start ≤ midpoint ∧ midpoint ≤ r.stop then true else false).map (·.id)

/-- Pair construction in `_detect_call_response_within_stem` (the Python
`{pair_counter:04d}` zero-padding of the id is not modelled). -/
def mkCallResponsePair (counter : ℕ) (stem_role : String)
    (call_motif response_motif : MotifInstance) (offset_seconds confidence : ℚ)
    (regions : List Region) : CallResponsePair :=
  { id := "call_response_" ++ stem_role ++ "_" ++ toString counter,
    from_motif_id := call_motif.id, to_motif_id := response_motif.id,
    from_stem_role := stem_role, to_stem_role := stem_role,
    from_time := call_motif.start_time, to_time := response_motif.start_time,
    time_offset := offset_seconds, confidence := confidence,
    region_id := find_region_for_pair call_motif.start_time response_motif.start_time regions }

/-- Body of the response loop in `_detect_call_response_within_stem`:
defensive id/offset checks, similarity gate, confidence gate, then append the
pair (`pair_counter` equals the number of pairs appended so far). -/
def crResponseStep (sim : List ℚ → List ℚ → ℚ) (expFn : ℚ → ℚ)
    (regions : List Region) (bpm min_offset_seconds : ℚ)
    (config : CallResponseConfig) (stem_role : String) (call_motif : MotifInstance)
    (pairs : List CallResponsePair) (ro : MotifInstance × ℚ) :
    List CallResponsePair :=
  let (response_motif, offset_seconds) := ro
  if call_motif.id = response_motif.id then pairs
  else if pyAbs offset_seconds < min_offset_seconds then pairs
  else
    let offset_bars := (offset_seconds / 60) * bpm / 4
    let similarity := sim call_motif.features response_motif.features
    if similarity < config.min_similarity then pairs
    else
      let confidence := compute_confidence expFn similarity offset_bars config
      if confidence < config.min_confidence then pairs
      else pairs ++ [mkCallResponsePair pairs.length stem_role call_motif
                      response_motif offset_seconds confidence regions]

/-- `_detect_call_response_within_stem`: every motif of the stem as a call,
all qualifying responses appended in order. -/
def detect_call_response_within_stem (sim : List ℚ → List ℚ → ℚ)
    (expFn : ℚ → ℚ) (stem_motifs : List MotifInstance) (regions : List Region)
    (bpm min_offset_seconds max_offset_seconds : ℚ) (config : CallResponseConfig)
    (stem_role : String) : List CallResponsePair :=
  stem_motifs.foldl (fun pairs call_motif =>
    (find_potential_responses call_motif stem_motifs min_offset_seconds
        max_offset_seconds).foldl
      (crResponseStep sim expFn regions bpm min_offset_seconds config stem_role call_motif)
      pairs) []

/-- The canonical key of `_deduplicate_pairs`:
`tuple(sorted([from_motif_id, to_motif_id]))` under Python's lexicographic
string order. -/
def pairKey (p : CallResponsePair) : String × String :=
  if p.to_motif_id < p.from_motif_id then (p.to_motif_id, p.from_motif_id)
  else (p.from_motif_id, p.to_motif_id)

/-- One step of `_deduplicate_pairs`: state is `(seen, unique_pairs)`.  A new
key is recorded and the pair appended; a seen key keeps the existing pair
unless the new one has strictly greater confidence, in which case the
existing pair is removed and the new one appended (Python `list.remove` drops
the first element equal to it; the `seen` invariant guarantees the `next(...)`
lookup finds a pair, so the impossible branch is the identity). -/
def dedupStep (st : List (String × String) × List CallResponsePair)
    (pair : CallResponsePair) : List (String × String) × List CallResponsePair :=
  let (seen, unique_pairs) := st
  let key := pairKey pair
  if seen.contains key then
    match unique_pairs.find? (fun p => pairKey p = key) with
    | some existing =>
        if existing.confidence < pair.confidence then
          (seen, unique_pairs.erase existing ++ [pair])
        else (seen, unique_pairs)
    | none => (seen, unique_pairs)
  else (key :: seen, unique_pairs ++ [pair])

/-- `_deduplicate_pairs`. -/
def deduplicate_pairs (pairs : List CallResponsePair) : List CallResponsePair :=
  (pairs.foldl dedupStep ([], [])).2

/-- Descending-confidence order used by `list.sort(key=confidence,
reverse=True)`; `insertionSort` with it is stable, like Python's sort. -/
def confGE (a b : CallResponsePair) : Prop := b.confidence ≤ a.confidence

instance : DecidableRel confGE := fun a b =>
  inferInstanceAs (Decidable (b.confidence ≤ a.confidence))

/-- First-seen-order key list (Python dict key order in the
`max_responses_per_call` grouping). -/
def firstSeenKeys (seen : List String) : List String → List String
  | [] => []
  | k :: rest =>
      if seen.contains k then firstSeenKeys seen rest
      else k :: firstSeenKeys (k :: seen) rest

/-- `_rank_and_filter_pairs`: confidence filter, stable descending sort, and
the optional top-N-responses-per-call limit (group by call id in first-seen
order, take N each, re-sort). -/
def rank_and_filter_pairs (pairs : List CallResponsePair)
    (config : CallResponseConfig) : List CallResponsePair :=
  let filtered := pairs.filter fun p =>
    if config.min_confidence ≤ p.confidence then true else false
  let filtered := filtered.insertionSort confGE
  match config.max_responses_per_call with
  | none => filtered
  | some n =>
      let call_ids := firstSeenKeys [] (filtered.map (·.from_motif_id))
      let limited := call_ids.flatMap fun cid =>
        (filtered.filter fun p => p.from_motif_id = cid).take n
      limited.insertionSort confGE

/-- The motif-validity filter of `detect_call_response`: skip `full_mix`
unless `use_full_mix`, keep the four stem categories (and `full_mix` when
enabled). -/
def crKeepMotif (use_full_mix : Bool) (m : MotifInstance) : Bool :=
  if m.stem_role = "full_mix" && !use_full_mix then false
  else if ["drums", "bass", "vocals", "instruments"].contains m.stem_role then true
  else if m.stem_role = "full_mix" && use_full_mix then true
  else false

/-- `defaultdict(list)` grouping by `stem_role` in first-seen key order. -/
def addToStemGroup (acc : List (String × List MotifInstance)) (m : MotifInstance) :
    List (String × List MotifInstance) :=
  match acc with
  | [] => [(m.stem_role, [m])]
  | (k, ms) :: rest =>
      if k = m.stem_role then (k, ms ++ [m]) :: rest
      else (k, ms) :: addToStemGroup rest m

/-- The `by_stem` grouping loop of `detect_call_response`. -/
def group_by_stem (motifs : List MotifInstance) (use_full_mix : Bool) :
    List (String × List MotifInstance) :=
  motifs.foldl (fun acc m => if crKeepMotif use_full_mix m then addToStemGroup acc m else acc) []

/-- `detect_call_response(motifs, regions, bpm, config)`: group by stem,
detect within each stem only, deduplicate, rank and filter. -/
def detect_call_response (sim : List ℚ → List ℚ → ℚ) (expFn : ℚ → ℚ)
    (motifs : List MotifInstance) (regions : List Region) (bpm : ℚ)
    (config : CallResponseConfig) : List CallResponsePair :=
  let by_stem := group_by_stem motifs config.use_full_mix
  let min_offset_seconds := bars_to_seconds config.min_offset_bars bpm
  let max_offset_seconds := bars_to_seconds config.max_offset_bars bpm
  let all_pairs := by_stem.flatMap fun g =>
    detect_call_response_within_stem sim expFn g.2 regions bpm
      min_offset_seconds max_offset_seconds config g.1
  rank_and_filter_pairs (deduplicate_pairs all_pairs) config

/-! ## Fill detection
(`src/backend/src/analysis/fill_detector/fill_detector.py`).

`compute_transient_density` + `librosa.frames_to_time` produce, per stem, a
frame-wise `(time, density)` curve from the audio; those curves are external
numerics and are passed in as `stem_curves` (an association list
stem role → frame list, defined for the stems present in the `stems` dict).
Everything `_detect_fills_at_boundary` does with the curves — window masking,
averages, the downstream-region baseline, the activity threshold, peak
picking, confidence and fill-type inference — is modelled below. -/

/-- `FillConfig` defaults (`hop_length`/`window_size` only parameterise the
external density computation and are omitted). -/
structure FillConfig where
  pre_boundary_window_bars : ℚ := 2.0
  transient_density_threshold_multiplier : ℚ := 1.5
  min_transient_density : ℚ := 0.3
deriving Repr

/-- `Fill` dataclass. -/
structure Fill where
  id : String
  time : ℚ
  stem_roles : List String
  region_id : String
  confidence : ℚ
  fill_type : Option String := none
deriving Repr, DecidableEq

/-- Per-stem analysis record built in the first loop of
`_detect_fills_at_boundary`: the window frames (`density`/`times` under the
window mask), their average (`avg`), and the downstream-region baseline
(`stem_averages[stem_role]`). -/
structure StemWindowData where
  role : String
  window_frames : List (ℚ × ℚ)
  avg : ℚ
  region_avg : ℚ
deriving Repr, DecidableEq

/-- `_compute_region_average_transient_density`: mean density over frames
with `region_start ≤ t ≤ region_end`, `0.0` if there are none. -/
def region_average_transient_density (frames : List (ℚ × ℚ))
    (region_start region_end : ℚ) : ℚ :=
  let in_region := frames.filter fun f =>
    if region_start ≤ f.1 ∧ f.1 ≤ region_end then true else false
  if in_region.isEmpty then 0 else listMean (in_region.map (·.2))

/-- The per-stem loop of `_detect_fills_at_boundary`: stems missing from the
dict or with no frame inside the window are skipped. -/
def fillStemData (downstream_region : Region)
    (stem_curves : List (String × List (ℚ × ℚ))) (stem_roles : List String)
    (window_start window_end : ℚ) : List StemWindowData :=
  stem_roles.filterMap fun role =>
    match (stem_curves.find? fun c => c.1 = role) with
    | none => none
    | some c =>
        let frames := c.2
        let window_frames := frames.filter fun f =>
          if window_start ≤ f.1 ∧ f.1 ≤ window_end then true else false
        if window_frames.isEmpty then none
        else
          some
            { role := role, window_frames := window_frames,
              avg := listMean (window_frames.map (·.2)),
              region_avg := region_average_transient_density frames
                downstream_region.start downstream_region.stop }

/-- The activity threshold of `_detect_fills_at_boundary`:
`max(region_avg * multiplier, min_transient_density)`. -/
def fillThreshold (region_avg : ℚ) (config : FillConfig) : ℚ :=
  max (region_avg * config.transient_density_threshold_multiplier)
    config.min_transient_density

/-- The active stems at a boundary: window average at or above the
threshold, in the fixed stem iteration order (drums, bass, vocals,
instruments). -/
def fillActiveData (downstream_region : Region)
    (stem_curves : List (String × List (ℚ × ℚ))) (stem_roles : List String)
    (window_start window_end : ℚ) (config : FillConfig) : List StemWindowData :=
  (fillStemData downstream_region stem_curves stem_roles
      window_start window_end).filter
    fun d => if fillThreshold d.region_avg config ≤ d.avg then true else false

/-- `np.argmax`-based peak of a nonempty frame list: the first frame whose
density is maximal (`>` replaces only on a strict increase). -/
def peakFrame (f : ℚ × ℚ) (fs : List (ℚ × ℚ)) : ℚ × ℚ :=
  fs.foldl (fun best g => if best.2 < g.2 then g else best) f

/-- The peak-tracking loop over active stems: running `(max_density,
max_density_time)`, updated when a stem's window peak strictly exceeds the
running maximum (initial state `(0, boundary_time)`). -/
def fillPeak (boundary_time : ℚ) (active : List StemWindowData) : ℚ × ℚ :=
  active.foldl (fun st d =>
    match d.window_frames with
    | [] => st
    | f :: fs =>
        let pk := peakFrame f fs
        if st.1 < pk.2 then (pk.2, pk.1) else st) (0, boundary_time)

/-- The confidence computation of `_detect_fills_at_boundary` applied to
`active_stems[0]` (the *first* active stem in stem order): normalized excess
over that stem's threshold, clamped; fallback `0.5` when the threshold is at
least 1 (`max_excess ≤ 0`). -/
def fillConfidence (best : StemWindowData) (config : FillConfig) : ℚ :=
  let threshold := fillThreshold best.region_avg config
  let excess := best.avg - threshold
  let max_excess := 1 - threshold
  max 0 (if 0 < max_excess then min 1 (excess / max_excess) else 0.5)

/-- `fill_type` inference from the active stems. -/
def fillType (active_stems : List String) : Option String :=
  if active_stems.length = 1 then
    match active_stems with
    | ["drums"] => some "drum_fill"
    | ["bass"] => some "bass_slide"
    | ["vocals"] => some "vocal_adlib"
    | ["instruments"] => some "instrument_fill"
    | _ => none
  else some "multi_stem_fill"

/-- `_detect_fills_at_boundary`.  Returns `none` for a degenerate window or
when no stem is active. -/
def detect_fills_at_boundary (boundary_time : ℚ) (downstream_region : Region)
    (stem_curves : List (String × List (ℚ × ℚ))) (stem_roles : List String)
    (bpm : ℚ) (config : FillConfig) : Option Fill :=
  let window_seconds := bars_to_seconds config.pre_boundary_window_bars bpm
  let window_start := max 0 (boundary_time - window_seconds)
  let window_end := boundary_time
  if window_end ≤ window_start then none
  else
    let active := fillActiveData downstream_region stem_curves
      stem_roles window_start window_end config
    match active with
    | [] => none
    | best :: _ =>
        let confidence := fillConfidence best config
        let (_, max_density_time) := fillPeak boundary_time active
        some { id := "fill_" ++ downstream_region.id ++ "_"
                 ++ toString (pyInt (max_density_time * 100)),
               time := max_density_time,
               stem_roles := active.map (·.role),
               region_id := downstream_region.id,
               confidence := confidence,
               fill_type := fillType (active.map (·.role)) }

/-! ## Theorems -/

/-- **C9.** For every input whose track duration is ≤ 0 (zero or negative),
region detection raises a precondition error (the `ValueError` of
`estimate_initial_boundaries`, which `detect_regions` calls before producing
any region) rather than returning a region list. -/
theorem C9_nonpositive_duration_fails_fast (duration bpm : ℚ)
    (peak_times novelty : List ℚ) (sr : ℕ) (h : duration ≤ 0) :
    detect_regions duration bpm peak_times novelty sr =
      .error "Duration must be positive" := by
  simp [detect_regions, estimate_initial_boundaries, if_pos h, Except.map]

/-- Witness for C9 at durations `0` and `-3`. -/
theorem C9_nonpositive_duration_fails_fast_witness :
    detect_regions 0 120 [] [] 512 = .error "Duration must be positive" ∧
    detect_regions (-3) 120 [] [] 512 = .error "Duration must be positive" :=
  ⟨C9_nonpositive_duration_fails_fast 0 120 [] [] 512 le_rfl,
   C9_nonpositive_duration_fails_fast (-3) 120 [] [] 512 (by norm_num)⟩

/-- **C3.** `bars_to_seconds` and `seconds_to_bars` are exact inverses for
any BPM > 0; at BPM 120, 2 bars ⇔ 4.0 s, and at BPM 60, 1 bar ⇔ 4.0 s. -/
theorem C3_bars_seconds_exact_inverses :
    (∀ bars seconds bpm : ℚ, 0 < bpm →
      seconds_to_bars (bars_to_seconds bars bpm) bpm = bars ∧
      bars_to_seconds (seconds_to_bars seconds bpm) bpm = seconds) ∧
    bars_to_seconds 2 120 = 4 ∧ seconds_to_bars 4 120 = 2 ∧
    bars_to_seconds 1 60 = 4 ∧ seconds_to_bars 4 60 = 1 := by
  refine ⟨fun bars seconds bpm h => ⟨?_, ?_⟩, ?_, ?_, ?_, ?_⟩ <;>
    simp only [bars_to_seconds, seconds_to_bars]
  · field_simp
  · field_simp
    ring
  all_goals norm_num

/-- Witness for C3's roundtrip at bars 3, seconds 7, BPM 120. -/
theorem C3_bars_seconds_exact_inverses_witness :
    seconds_to_bars (bars_to_seconds 3 120) 120 = 3 ∧
    bars_to_seconds (seconds_to_bars 7 120) 120 = 7 :=
  C3_bars_seconds_exact_inverses.1 3 7 120 (by norm_num)

/-- **C8.** Sensitivity clamping maps 0.99 to 0.95 and 0.0 to 0.05, leaves
every value already in [0.05, 0.95] unchanged, and equals
`max(0.05, min(0.95, x))` for all `x`. -/
theorem C8_clamp_sensitivity_spec :
    clamp_sensitivity 0.99 = 0.95 ∧ clamp_sensitivity 0 = 0.05 ∧
    (∀ x : ℚ, 0.05 ≤ x → x ≤ 0.95 → clamp_sensitivity x = x) ∧
    (∀ x : ℚ, clamp_sensitivity x = max 0.05 (min 0.95 x)) := by
  refine ⟨by norm_num [clamp_sensitivity], by norm_num [clamp_sensitivity],
    fun x h1 h2 => ?_, fun x => rfl⟩
  rw [clamp_sensitivity, min_eq_right h2, max_eq_right h1]

/-- Witness for C8's pass-through clause at 0.5. -/
theorem C8_clamp_sensitivity_spec_witness : clamp_sensitivity 0.5 = 0.5 :=
  C8_clamp_sensitivity_spec.2.2.1 0.5 (by norm_num) (by norm_num)

/-- The single region produced for a 10-second track with no novelty
peaks. -/
def tenSecondRegion : Region :=
  { id := "region_1", name := "Temp", type := "temp", start := 3/4,
    stop := 10, motifs := [], fills := [], callResponse := [] }

/-- Evaluation of the region pipeline on a 10-second track with no peaks:
the single returned region starts at 0.75 s. -/
lemma detect_regions_ten_second_eval :
    detect_regions 10 120 [] [] 512 = .ok [tenSecondRegion] := by
  rw [tenSecondRegion]
  norm_num [detect_regions, detect_regions_boundaries, estimate_initial_boundaries,
    snap_prior_to_nearest_peak, strong_peaks, deduplicate_boundaries, dedupGo,
    regionTuples, mkTempRegions, enforce_min_region_duration, enforceGo,
    enforceFirstPass, enforceFinalPass, mergeForward, mergeBackward,
    reassignIds, MIN_BOUNDARY_GAP_SEC, MIN_REGION_DURATION_SEC,
    Region.duration, List.insertionSort, List.orderedInsert, List.dedup,
    List.filter, Except.map]
  rfl

/-- **C1, counterexample.**  The claim says the returned regions exactly
cover `[0, track_duration]`.  For a 10-second track with no novelty peaks the
priors are `[0.75, 3, 5, 6.75, 8.25]`; after the 4-second-gap deduplication
the boundaries are `[0.75, 5]`, and since `0.75 ≤ 1.0` the source does *not*
force a boundary at 0 (it only does so when the first boundary exceeds 1 s).
The merge pass then yields the single region `[0.75, 10]`: the interval
`[0, 0.75)` — a gap of width 3/4, far above floating-point epsilon — is not
covered by any region. -/
theorem C1_coverage_counterexample :
    detect_regions 10 120 [] [] 512 = .ok [tenSecondRegion] ∧
    tenSecondRegion.start - 0 > 1/2 :=
  ⟨detect_regions_ten_second_eval, by norm_num [tenSecondRegion]⟩

/-- **C2.**  The claim (and the source's own comment "Final pass: ensure no
region is still below minimum") says no returned region is shorter than
`MIN_REGION_DURATION_SEC` = 8 s.  On a 64-second track with novelty peaks at
57.5 s and 62 s (the 62 s peak being strong, novelty 0.6 > 0.5), the
boundaries become `[0, 4.8, 19.2, 32, 43.2, 57.5, 62, 64]`; the first pass
merges `[57.5, 62)` forward into `[57.5, 64)`, a 6.5-second region, and the
final pass never merges a short *trailing* region backward, so the returned
list ends with a region of duration 6.5 < 8. -/
theorem C2_short_trailing_region_survives :
    (detect_regions 64 120 [57.5, 62] [0.6] 8).toOption.map
        (fun rs => rs.map fun r => (r.start, r.stop)) =
      some [(0, 96/5), (96/5, 32), (32, 216/5), (216/5, 115/2), (115/2, 64)] ∧
    ((64 : ℚ) - 115/2) < MIN_REGION_DURATION_SEC := by
  constructor
  · norm_num [detect_regions, detect_regions_boundaries, estimate_initial_boundaries,
      snap_prior_to_nearest_peak, strong_peaks, deduplicate_boundaries, dedupGo,
      regionTuples, mkTempRegions, enforce_min_region_duration, enforceGo,
      enforceFirstPass, enforceFinalPass, mergeForward, mergeBackward,
      reassignIds, MIN_BOUNDARY_GAP_SEC, MIN_REGION_DURATION_SEC, pyAbs,
      Region.duration, List.insertionSort, List.orderedInsert, List.dedup,
      List.filter, Except.map, Except.toOption]
  · norm_num [MIN_REGION_DURATION_SEC]

/-! ### Contiguity and sortedness of the region pipeline (for C1) -/

/-- Adjacency relation of a contiguous region list: each region ends where
the next begins. -/
def RStep (a b : Region) : Prop := a.stop = b.start

instance : DecidableRel RStep := fun a b =>
  inferInstanceAs (Decidable (a.stop = b.start))

/-- A well-formed contiguous region list: adjacent regions touch and every
region has positive duration. -/
def RegionChain (l : List Region) : Prop :=
  l.Chain' RStep ∧ ∀ r ∈ l, r.start < r.stop

lemma regionChain_nil : RegionChain [] := ⟨List.chain'_nil, by simp⟩

lemma dedupGo_chain {min_sep : ℚ} (hsep : 0 < min_sep) :
    ∀ (l : List ℚ) (last : ℚ), List.Chain' (· < ·) (last :: dedupGo min_sep last l)
  | [], _ => List.chain'_singleton _
  | b :: rest, last => by
      rw [dedupGo]
      split_ifs with h
      · exact List.Chain'.cons (by linarith) (dedupGo_chain hsep rest b)
      · exact dedupGo_chain hsep rest last

lemma deduplicate_boundaries_chain {min_sep : ℚ} (hsep : 0 < min_sep)
    (bs : List ℚ) : List.Chain' (· < ·) (deduplicate_boundaries min_sep bs) := by
  rw [deduplicate_boundaries]
  rcases bs.insertionSort (· ≤ ·) with - | ⟨b, rest⟩
  · exact List.chain'_nil
  · exact dedupGo_chain hsep rest b

lemma chain_lt_sorted_le {l : List ℚ} (h : List.Chain' (· < ·) l) :
    List.Sorted (· ≤ ·) l :=
  (List.chain'_iff_pairwise.mp h).imp le_of_lt

lemma regionTuples_chain : ∀ {bs : List ℚ}, List.Chain' (· < ·) bs →
    List.Chain' (fun a b : ℚ × ℚ => a.2 = b.1) (regionTuples bs) ∧
      ∀ t ∈ regionTuples bs, t.1 < t.2
  | [], _ => ⟨List.chain'_nil, by simp [regionTuples]⟩
  | [_], _ => ⟨List.chain'_nil, by simp [regionTuples]⟩
  | a :: b :: rest, h => by
      obtain ⟨hab, htail⟩ := List.chain'_cons.mp h
      obtain ⟨ih1, ih2⟩ := regionTuples_chain htail
      refine ⟨?_, ?_⟩
      · rw [regionTuples]
        rcases rest with - | ⟨c, rest'⟩
        · simp [regionTuples]
        · exact List.chain'_cons.mpr ⟨rfl, ih1⟩
      · intro t ht
        rw [regionTuples, List.mem_cons] at ht
        rcases ht with rfl | ht
        · exact hab
        · exact ih2 t ht

lemma mkTempRegions_start : ∀ (i : ℕ) (s e : ℚ) (ts : List (ℚ × ℚ)),
    (mkTempRegions i ((s, e) :: ts)).head?.map (·.start) = some s := by
  intro i s e ts
  rw [mkTempRegions]
  rfl

lemma mkTempRegions_chain : ∀ (ts : List (ℚ × ℚ)) (i : ℕ),
    List.Chain' (fun a b : ℚ × ℚ => a.2 = b.1) ts → (∀ t ∈ ts, t.1 < t.2) →
    RegionChain (mkTempRegions i ts)
  | [], _, _, _ => regionChain_nil
  | (s, e) :: rest, i, hc, hwf => by
      obtain ⟨ih1, ih2⟩ := mkTempRegions_chain rest (i + 1)
        (List.chain'_cons'.mp hc).2 (fun t ht => hwf t (List.mem_cons_of_mem _ ht))
      rw [mkTempRegions]
      refine ⟨?_, ?_⟩
      · rcases rest with - | ⟨⟨s', e'⟩, rest'⟩
        · simp [mkTempRegions]
        · rw [mkTempRegions]
          refine List.chain'_cons.mpr ⟨?_, ?_⟩
          · have := (List.chain'_cons.mp hc).1
            simpa [RStep] using this
          · rw [mkTempRegions] at ih1
            exact ih1
      · intro r hr
        rw [List.mem_cons] at hr
        rcases hr with rfl | hr
        · exact hwf (s, e) (List.mem_cons_self _ _)
        · exact ih2 r hr

lemma reverse_cons_append (x : Region) (acc rest : List Region) :
    (x :: acc).reverse ++ rest = acc.reverse ++ x :: rest := by
  simp

/-- The first merge pass preserves contiguity and positive durations.  The
invariant tracks the whole Python `merged + regions[i:]` state, i.e.
`acc.reverse ++ rest`. -/
lemma enforceFirstPass_chain (d : ℚ) :
    ∀ (n : ℕ) (rest acc : List Region), rest.length ≤ n →
      RegionChain (acc.reverse ++ rest) →
      RegionChain (enforceFirstPass d acc rest) := by
  intro n
  induction n with
  | zero =>
      intro rest acc hlen h
      obtain rfl : rest = [] := List.eq_nil_of_length_eq_zero (Nat.le_zero.mp hlen)
      rw [enforceFirstPass.eq_1]
      simpa using h
  | succ n ih =>
      intro rest acc hlen h
      match rest, acc with
      | [], acc =>
          rw [enforceFirstPass.eq_1]
          simpa using h
      | current :: next :: rest'', acc =>
          rw [enforceFirstPass.eq_2]
          split
          · -- current is short: merge forward
            apply ih rest'' (mergeForward current next :: acc)
              (by simp at hlen ⊢; omega)
            rw [reverse_cons_append]
            obtain ⟨hc, hwf⟩ := h
            rw [List.chain'_append] at hc
            obtain ⟨hc1, hc2, hlink⟩ := hc
            have hcn : RStep current next := (List.chain'_cons.mp hc2).1
            have hc3 := (List.chain'_cons.mp hc2).2
            constructor
            · rw [List.chain'_append]
              refine ⟨hc1, ?_, ?_⟩
              · rw [List.chain'_cons']
                refine ⟨?_, (List.chain'_cons'.mp hc3).2⟩
                intro y hy
                have := (List.chain'_cons'.mp hc3).1 y hy
                simpa [RStep, mergeForward] using this
              · intro x hx y hy
                simp only [List.head?_cons, Option.mem_def, Option.some.injEq] at hy
                subst hy
                have := hlink x hx current (by simp)
                simpa [RStep, mergeForward] using this
            · intro r hr
              rw [List.mem_append, List.mem_cons] at hr
              rcases hr with hr | rfl | hr
              · exact hwf r (by simp [hr])
              · have h1 := hwf current (by simp)
                have h2 := hwf next (by simp)
                have heq : current.stop = next.start := hcn
                simp only [mergeForward]
                exact lt_trans (heq ▸ h1) h2
              · exact hwf r (by simp [hr])
          · -- current long enough
            apply ih (next :: rest'') (current :: acc) (by simp at hlen ⊢; omega)
            rw [reverse_cons_append]
            exact h
      | [current], prev :: acc2 =>
          rw [enforceFirstPass.eq_3]
          split
          · -- short last region merges backward
            rw [enforceFirstPass.eq_1, List.reverse_cons]
            rw [reverse_cons_append] at h
            obtain ⟨hc, hwf⟩ := h
            rw [List.chain'_append] at hc
            obtain ⟨hc1, hc2, hlink⟩ := hc
            have hpc : RStep prev current := (List.chain'_cons.mp hc2).1
            constructor
            · rw [List.chain'_append]
              refine ⟨hc1, List.chain'_singleton _, ?_⟩
              intro x hx y hy
              simp only [List.head?_cons, Option.mem_def, Option.some.injEq] at hy
              subst hy
              have := hlink x hx prev (by simp)
              simpa [RStep, mergeBackward] using this
            · intro r hr
              rw [List.mem_append, List.mem_singleton] at hr
              rcases hr with hr | rfl
              · exact hwf r (by simp [hr])
              · have h1 := hwf prev (by simp)
                have h2 := hwf current (by simp)
                have hpc' : prev.stop = current.start := hpc
                simp only [mergeBackward]
                exact lt_trans (hpc' ▸ h1) h2
          · -- long last region
            rw [enforceFirstPass.eq_1]
            rw [reverse_cons_append] at h
            simpa using h
      | [current], [] =>
          rw [enforceFirstPass.eq_4]
          split <;>
          · rw [enforceFirstPass.eq_1]
            simpa using h

/-- The final pass keeps the start time of the first region. -/
lemma enforceFinalPass_head (d : ℚ) (x : Region) (m : List Region) :
    ∃ y t, (enforceFinalPass d (x :: m)).1 = y :: t ∧ y.start = x.start := by
  match m with
  | [] => exact ⟨x, [], by rw [enforceFinalPass.eq_2], rfl⟩
  | next :: rest =>
      rw [enforceFinalPass.eq_3]
      split
      · exact ⟨mergeForward x next, [], rfl, rfl⟩
      · rcases hfp : enforceFinalPass d (next :: rest) with ⟨f, b⟩
        exact ⟨x, f, rfl, rfl⟩

/-- The final pass preserves contiguity and positive durations. -/
lemma enforceFinalPass_chain (d : ℚ) :
    ∀ (m : List Region), RegionChain m → RegionChain (enforceFinalPass d m).1
  | [] , _ => by rw [enforceFinalPass.eq_1]; exact regionChain_nil
  | [r], h => by rw [enforceFinalPass.eq_2]; exact h
  | r :: next :: rest, h => by
      obtain ⟨hc, hwf⟩ := h
      have hrn : RStep r next := (List.chain'_cons.mp hc).1
      have htail : RegionChain (next :: rest) :=
        ⟨(List.chain'_cons.mp hc).2, fun x hx => hwf x (List.mem_cons_of_mem _ hx)⟩
      rw [enforceFinalPass.eq_3]
      split
      · refine ⟨List.chain'_singleton _, ?_⟩
        intro x hx
        rw [List.mem_singleton] at hx
        subst hx
        have h1 := hwf r (by simp)
        have h2 := hwf next (by simp)
        have heq : r.stop = next.start := hrn
        simp only [mergeForward]
        exact lt_trans (heq ▸ h1) h2
      · have ih := enforceFinalPass_chain d (next :: rest) htail
        obtain ⟨y, t, hyt, hy⟩ := enforceFinalPass_head d next rest
        rcases hfp : enforceFinalPass d (next :: rest) with ⟨f, b⟩
        rw [hfp] at ih hyt
        simp only at ih hyt ⊢
        subst hyt
        refine ⟨?_, ?_⟩
        · rw [List.chain'_cons]
          refine ⟨?_, ih.1⟩
          show r.stop = y.start
          rw [hy]
          exact hrn
        · intro x hx
          rw [List.mem_cons] at hx
          rcases hx with rfl | hx
          · exact hwf x (by simp)
          · exact ih.2 x hx

/-- The fuelled recursion preserves contiguity and positive durations. -/
lemma enforceGo_chain (d : ℚ) :
    ∀ (fuel : ℕ) (regions : List Region), RegionChain regions →
      RegionChain (enforceGo d fuel regions)
  | 0, regions, h => by rw [enforceGo.eq_1]; exact h
  | fuel + 1, regions, h => by
      rw [enforceGo.eq_2]
      split
      · exact regionChain_nil
      · have h1 := enforceFirstPass_chain d regions.length regions [] le_rfl
          (by simpa using h)
        have h2 := enforceFinalPass_chain d _ h1
        rcases hfp : enforceFinalPass d (enforceFirstPass d [] regions) with ⟨f, b⟩
        rw [hfp] at h2
        simp only at h2
        match b with
        | true => exact enforceGo_chain d fuel f h2
        | false => exact h2

/-- `enforce_min_region_duration` preserves contiguity and positive
durations. -/
lemma enforce_min_region_duration_chain (regions : List Region) (d : ℚ)
    (h : RegionChain regions) :
    RegionChain (enforce_min_region_duration regions d) :=
  enforceGo_chain d regions.length regions h

/-- Id reassignment touches neither geometry nor order. -/
lemma reassignIds_chain : ∀ (l : List Region) (i : ℕ), RegionChain l →
    RegionChain (reassignIds i l)
  | [], _, _ => regionChain_nil
  | [r], i, h => by
      rw [reassignIds, reassignIds]
      refine ⟨List.chain'_singleton _, ?_⟩
      intro x hx
      rw [List.mem_singleton] at hx
      subst hx
      exact h.2 r (by simp)
  | r :: s :: rest, i, h => by
      have htail : RegionChain (s :: rest) :=
        ⟨(List.chain'_cons.mp h.1).2, fun x hx => h.2 x (List.mem_cons_of_mem _ hx)⟩
      have ih := reassignIds_chain (s :: rest) (i + 1) htail
      rw [reassignIds]
      refine ⟨?_, ?_⟩
      · rw [reassignIds] at ih ⊢
        rw [List.chain'_cons]
        refine ⟨?_, ih.1⟩
        show r.stop = s.start
        exact (List.chain'_cons.mp h.1).1
      · intro x hx
        rw [reassignIds] at hx
        rw [List.mem_cons] at hx
        rcases hx with rfl | hx
        · exact h.2 r (by simp)
        · rw [reassignIds] at ih
          exact ih.2 x hx

/-- The boundary list assembled by `detect_regions` is strictly increasing,
whatever the priors, peaks and novelty curve look like: deduplication with
the 4-second minimum gap makes the sorted list strictly increasing, a `0` is
prepended only when the first boundary exceeds 1, and the duration is
appended only when the last boundary is below `duration - 1`. -/
lemma detect_regions_boundaries_chain (duration : ℚ)
    (prior_boundaries peak_times novelty : List ℚ) (sr : ℕ) :
    List.Chain' (· < ·)
      (detect_regions_boundaries duration prior_boundaries peak_times novelty sr) := by
  rw [detect_regions_boundaries]
  have h0 : List.Chain' (· < ·)
      (deduplicate_boundaries MIN_BOUNDARY_GAP_SEC
        (prior_boundaries.map (fun prior => snap_prior_to_nearest_peak prior peak_times 5)
          ++ strong_peaks peak_times prior_boundaries novelty sr)) :=
    deduplicate_boundaries_chain (by norm_num [MIN_BOUNDARY_GAP_SEC]) _
  have hsorted : (deduplicate_boundaries MIN_BOUNDARY_GAP_SEC
        (prior_boundaries.map (fun prior => snap_prior_to_nearest_peak prior peak_times 5)
          ++ strong_peaks peak_times prior_boundaries novelty sr)).insertionSort (· ≤ ·)
      = deduplicate_boundaries MIN_BOUNDARY_GAP_SEC
        (prior_boundaries.map (fun prior => snap_prior_to_nearest_peak prior peak_times 5)
          ++ strong_peaks peak_times prior_boundaries novelty sr) :=
    List.Sorted.insertionSort_eq (chain_lt_sorted_le h0)
  rw [hsorted]
  set b0 := deduplicate_boundaries MIN_BOUNDARY_GAP_SEC
    (prior_boundaries.map (fun prior => snap_prior_to_nearest_peak prior peak_times 5)
      ++ strong_peaks peak_times prior_boundaries novelty sr) with hb0
  clear_value b0
  have h1 : ∀ (b1 : List ℚ), List.Chain' (· < ·) b1 →
      List.Chain' (· < ·)
        (match b1.getLast? with
         | none => b1 ++ [duration]
         | some last => if last < duration - 1 then b1 ++ [duration] else b1) := by
    intro b1 hc
    match hl : b1.getLast? with
    | none =>
        obtain rfl : b1 = [] := List.getLast?_eq_none_iff.mp hl
        simp
    | some last =>
        dsimp only
        split_ifs with hlt
        · rw [List.chain'_append]
          refine ⟨hc, List.chain'_singleton _, ?_⟩
          intro x hx y hy
          simp only [List.head?_cons, Option.mem_def, Option.some.injEq] at hy
          subst hy
          rw [hl, Option.mem_def, Option.some.injEq] at hx
          subst hx
          linarith
        · exact hc
  rcases b0 with - | ⟨b, rest⟩
  · exact h1 [0] (List.chain'_singleton _)
  · dsimp only
    split_ifs with hb
    · exact h1 (0 :: b :: rest) (List.chain'_cons.mpr ⟨by linarith, h0⟩)
    · exact h1 (b :: rest) h0

/-- **C1 (amended).**  For every input, the region list returned by
`detect_regions` is sorted and contiguous: each region has positive duration
(`start < stop`, hence the list is sorted by start time) and every region's
start equals the previous region's end — including after the minimum-duration
merge passes.  (Exact coverage of `[0, track_duration]`, the part of the
claim refuted by `C1_coverage_counterexample`, is *not* guaranteed.) -/
theorem C1_regions_sorted_contiguous (duration bpm : ℚ)
    (peak_times novelty : List ℚ) (sr : ℕ) (rs : List Region)
    (h : detect_regions duration bpm peak_times novelty sr = .ok rs) :
    rs.Chain' (fun a b => a.stop = b.start) ∧ ∀ r ∈ rs, r.start < r.stop := by
  rw [detect_regions] at h
  cases hpe : estimate_initial_boundaries duration bpm with
  | error e => rw [hpe] at h; simp [Except.map] at h
  | ok priors =>
      rw [hpe] at h
      simp only [Except.map, Except.ok.injEq] at h
      subst h
      have hb := detect_regions_boundaries_chain duration priors peak_times novelty sr
      obtain ⟨ht1, ht2⟩ := regionTuples_chain hb
      have htemp := mkTempRegions_chain _ 0 ht1 ht2
      have henf := enforce_min_region_duration_chain _ MIN_REGION_DURATION_SEC htemp
      exact reassignIds_chain _ 0 henf

/-- Witness for C1's amended theorem on the 10-second example. -/
theorem C1_regions_sorted_contiguous_witness :
    ([tenSecondRegion] : List Region).Chain' (fun a b => a.stop = b.start) ∧
    ∀ r ∈ ([tenSecondRegion] : List Region), r.start < r.stop :=
  C1_regions_sorted_contiguous 10 120 [] [] 512 _
    detect_regions_ten_second_eval

/-! ### Deduplication of call-response pairs (for C6) -/

/-- The invariant of the `_deduplicate_pairs` loop: `unique_pairs` has
pairwise-distinct canonical keys and every key in it has been `seen`. -/
def DedupInv (st : List (String × String) × List CallResponsePair) : Prop :=
  (st.2.map pairKey).Nodup ∧ ∀ p ∈ st.2, pairKey p ∈ st.1

lemma dedupStep_inv {st : List (String × String) × List CallResponsePair}
    {pair : CallResponsePair} (h : DedupInv st) : DedupInv (dedupStep st pair) := by
  rcases st with ⟨seen, uniques⟩
  obtain ⟨hnd, hseen⟩ := h
  have hu : uniques.Nodup := hnd.of_map
  rw [dedupStep]
  by_cases hc : pairKey pair ∈ seen
  · rw [if_pos (List.elem_eq_true_of_mem hc)]
    cases hfind : uniques.find? (fun p => pairKey p = pairKey pair) with
    | none => exact ⟨hnd, hseen⟩
    | some existing =>
        have hexmem : existing ∈ uniques := List.mem_of_find?_eq_some hfind
        have hexkey : pairKey existing = pairKey pair := by
          have := List.find?_some hfind
          simpa using this
        dsimp only
        split_ifs with hconf
        · constructor
          · rw [List.map_append]
            rw [List.nodup_append]
            refine ⟨((uniques.erase_sublist existing).map pairKey).nodup hnd,
              List.nodup_singleton _, ?_⟩
            intro k hk
            simp only [List.map_cons, List.map_nil, List.mem_singleton]
            intro hkk
            subst hkk
            rw [List.mem_map] at hk
            obtain ⟨q, hq, hqk⟩ := hk
            have hq' := (hu.mem_erase_iff.mp hq)
            have : q = existing :=
              List.inj_on_of_nodup_map hnd hq'.2 hexmem (hqk.trans hexkey.symm)
            exact hq'.1 this
          · intro p hp
            rw [List.mem_append, List.mem_singleton] at hp
            rcases hp with hp | rfl
            · exact hseen p (uniques.erase_sublist existing |>.mem hp)
            · exact hc
        · exact ⟨hnd, hseen⟩
  · rw [if_neg (fun hh => hc (List.mem_of_elem_eq_true hh))]
    constructor
    · rw [List.map_append]
      rw [List.nodup_append]
      refine ⟨hnd, List.nodup_singleton _, ?_⟩
      intro k hk
      simp only [List.map_cons, List.map_nil, List.mem_singleton]
      intro hkk
      subst hkk
      rw [List.mem_map] at hk
      obtain ⟨q, hq, hqk⟩ := hk
      exact hc (hqk ▸ hseen q hq)
    · intro p hp
      rw [List.mem_append, List.mem_singleton] at hp
      rcases hp with hp | rfl
      · exact List.mem_cons_of_mem _ (hseen p hp)
      · exact List.mem_cons_self _ _

lemma dedup_fold_inv :
    ∀ (pairs : List CallResponsePair)
      (st : List (String × String) × List CallResponsePair),
      DedupInv st → DedupInv (pairs.foldl dedupStep st)
  | [], _, h => h
  | pair :: rest, st, h => dedup_fold_inv rest (dedupStep st pair) (dedupStep_inv h)

/-- The full invariant of the `_deduplicate_pairs` loop over the processed
prefix `done`: `unique_pairs` has pairwise-distinct canonical keys, `seen`
holds exactly the keys of `unique_pairs`, every processed pair's key is
seen, and each kept pair's confidence dominates every processed pair of its
key class. -/
def DedupStrong (done : List CallResponsePair)
    (st : List (String × String) × List CallResponsePair) : Prop :=
  (st.2.map pairKey).Nodup ∧
  (∀ p ∈ st.2, pairKey p ∈ st.1) ∧
  (∀ k ∈ st.1, ∃ q ∈ st.2, pairKey q = k) ∧
  (∀ p ∈ done, pairKey p ∈ st.1) ∧
  (∀ q ∈ st.2, ∀ p ∈ done, pairKey p = pairKey q → p.confidence ≤ q.confidence)

lemma dedupStrong_step {done : List CallResponsePair}
    {st : List (String × String) × List CallResponsePair}
    {pair : CallResponsePair} (h : DedupStrong done st) :
    DedupStrong (done ++ [pair]) (dedupStep st pair) := by
  rcases st with ⟨seen, uniques⟩
  obtain ⟨hnd, hkeys, hcover, hdone, hmax⟩ := h
  have hu : uniques.Nodup := hnd.of_map
  rw [dedupStep]
  by_cases hc : pairKey pair ∈ seen
  · rw [if_pos (List.elem_eq_true_of_mem hc)]
    cases hfind : uniques.find? (fun p => pairKey p = pairKey pair) with
    | none =>
        exfalso
        obtain ⟨q, hq, hqk⟩ := hcover _ hc
        exact List.find?_eq_none.mp hfind q hq (decide_eq_true hqk)
    | some existing =>
        have hexmem : existing ∈ uniques := List.mem_of_find?_eq_some hfind
        have hexkey : pairKey existing = pairKey pair := by
          have := List.find?_some hfind
          simpa using this
        dsimp only
        split_ifs with hconf
        · refine ⟨?_, ?_, ?_, ?_, ?_⟩
          · rw [List.map_append, List.nodup_append]
            refine ⟨((uniques.erase_sublist existing).map pairKey).nodup hnd,
              List.nodup_singleton _, ?_⟩
            intro k hk
            simp only [List.map_cons, List.map_nil, List.mem_singleton]
            intro hkk
            subst hkk
            rw [List.mem_map] at hk
            obtain ⟨q, hq, hqk⟩ := hk
            have hq' := (hu.mem_erase_iff.mp hq)
            have : q = existing :=
              List.inj_on_of_nodup_map hnd hq'.2 hexmem (hqk.trans hexkey.symm)
            exact hq'.1 this
          · intro p hp
            rw [List.mem_append, List.mem_singleton] at hp
            rcases hp with hp | rfl
            · exact hkeys p (uniques.erase_sublist existing |>.mem hp)
            · exact hc
          · intro k hk
            obtain ⟨q, hq, hqk⟩ := hcover k hk
            by_cases hqe : q = existing
            · refine ⟨pair, List.mem_append_right _ (List.mem_singleton_self _), ?_⟩
              rw [← hqk, hqe, hexkey]
            · exact ⟨q, List.mem_append_left _ (hu.mem_erase_iff.mpr ⟨hqe, hq⟩), hqk⟩
          · intro p hp
            rw [List.mem_append, List.mem_singleton] at hp
            rcases hp with hp | rfl
            · exact hdone p hp
            · exact hc
          · intro q hq p hp hpk
            rw [List.mem_append, List.mem_singleton] at hq hp
            rcases hq with hq | rfl
            · have hqmem : q ∈ uniques := (uniques.erase_sublist existing).mem hq
              rcases hp with hp | rfl
              · exact hmax q hqmem p hp hpk
              · exfalso
                have hqe : q = existing :=
                  List.inj_on_of_nodup_map hnd hqmem hexmem (hpk.symm.trans hexkey.symm)
                exact (hu.mem_erase_iff.mp hq).1 hqe
            · rcases hp with hp | rfl
              · exact (hmax existing hexmem p hp (hpk.trans hexkey.symm)).trans hconf.le
              · exact le_refl _
        · refine ⟨hnd, hkeys, hcover, ?_, ?_⟩
          · intro p hp
            rw [List.mem_append, List.mem_singleton] at hp
            rcases hp with hp | rfl
            · exact hdone p hp
            · exact hc
          · intro q hq p hp hpk
            rw [List.mem_append, List.mem_singleton] at hp
            rcases hp with hp | rfl
            · exact hmax q hq p hp hpk
            · have hqe : q = existing :=
                List.inj_on_of_nodup_map hnd hq hexmem (hpk.symm.trans hexkey.symm)
              rw [hqe]
              exact not_lt.mp hconf
  · rw [if_neg (fun hh => hc (List.mem_of_elem_eq_true hh))]
    refine ⟨?_, ?_, ?_, ?_, ?_⟩
    · rw [List.map_append, List.nodup_append]
      refine ⟨hnd, List.nodup_singleton _, ?_⟩
      intro k hk
      simp only [List.map_cons, List.map_nil, List.mem_singleton]
      intro hkk
      subst hkk
      rw [List.mem_map] at hk
      obtain ⟨q, hq, hqk⟩ := hk
      exact hc (hqk ▸ hkeys q hq)
    · intro p hp
      rw [List.mem_append, List.mem_singleton] at hp
      rcases hp with hp | rfl
      · exact List.mem_cons_of_mem _ (hkeys p hp)
      · exact List.mem_cons_self _ _
    · intro k hk
      rw [List.mem_cons] at hk
      rcases hk with rfl | hk
      · exact ⟨pair, List.mem_append_right _ (List.mem_singleton_self _), rfl⟩
      · obtain ⟨q, hq, hqk⟩ := hcover k hk
        exact ⟨q, List.mem_append_left _ hq, hqk⟩
    · intro p hp
      rw [List.mem_append, List.mem_singleton] at hp
      rcases hp with hp | rfl
      · exact List.mem_cons_of_mem _ (hdone p hp)
      · exact List.mem_cons_self _ _
    · intro q hq p hp hpk
      rw [List.mem_append, List.mem_singleton] at hq hp
      rcases hq with hq | rfl
      · rcases hp with hp | rfl
        · exact hmax q hq p hp hpk
        · exfalso
          exact hc (by rw [hpk]; exact hkeys q hq)
      · rcases hp with hp | rfl
        · exfalso
          exact hc (by rw [← hpk]; exact hdone p hp)
        · exact le_refl _

lemma dedup_fold_strong :
    ∀ (pairs done : List CallResponsePair)
      (st : List (String × String) × List CallResponsePair),
      DedupStrong done st → DedupStrong (done ++ pairs) (pairs.foldl dedupStep st)
  | [], done, st, h => by simpa using h
  | pair :: rest, done, st, h => by
      have hstep := dedup_fold_strong rest (done ++ [pair]) (dedupStep st pair)
        (dedupStrong_step h)
      rw [List.foldl_cons]
      have harr : done ++ pair :: rest = (done ++ [pair]) ++ rest := by simp
      rw [harr]
      exact hstep

/-- The synthetic call-response pair A→B with confidence 0.8. -/
def crPairAB : CallResponsePair :=
  { id := "cr_ab", from_motif_id := "A", to_motif_id := "B",
    from_stem_role := "drums", to_stem_role := "drums",
    from_time := 0, to_time := 4, time_offset := 4, confidence := 0.8 }

/-- The reciprocal synthetic pair B→A with confidence 0.7. -/
def crPairBA : CallResponsePair :=
  { id := "cr_ba", from_motif_id := "B", to_motif_id := "A",
    from_stem_role := "drums", to_stem_role := "drums",
    from_time := 4, to_time := 8, time_offset := 4, confidence := 0.7 }

/-- **C6.**  For every input, `_deduplicate_pairs` leaves pairwise-distinct
canonical keys, every input pair's class (same unordered `{from_motif_id,
to_motif_id}` set) keeps a survivor, and each survivor's confidence
dominates every input pair of its class — so every class of reciprocal
duplicates collapses to exactly one pair, one of maximal confidence.  On
the synthetic input containing both (A→B, 0.8) and (B→A, 0.7), in either
order, exactly the confidence-0.8 pair survives. -/
theorem C6_dedup_keeps_higher_confidence :
    (∀ pairs : List CallResponsePair,
      ((deduplicate_pairs pairs).map pairKey).Nodup ∧
      (∀ p ∈ pairs, ∃ q ∈ deduplicate_pairs pairs, pairKey q = pairKey p) ∧
      (∀ q ∈ deduplicate_pairs pairs, ∀ p ∈ pairs,
        pairKey p = pairKey q → p.confidence ≤ q.confidence)) ∧
    deduplicate_pairs [crPairAB, crPairBA] = [crPairAB] ∧
    deduplicate_pairs [crPairBA, crPairAB] = [crPairAB] := by
  refine ⟨fun pairs => ?_, ?_, ?_⟩
  · have h := dedup_fold_strong pairs [] ([], [])
      ⟨by simp, by simp, by simp, by simp, by simp⟩
    rw [List.nil_append] at h
    obtain ⟨h1, -, h3, h4, h5⟩ := h
    exact ⟨h1, fun p hp => h3 _ (h4 p hp), h5⟩
  · norm_num +decide [deduplicate_pairs, dedupStep, pairKey, crPairAB, crPairBA,
      List.foldl, List.find?, List.erase]
  · norm_num +decide [deduplicate_pairs, dedupStep, pairKey, crPairAB, crPairBA,
      List.foldl, List.find?, List.erase]

/-! ### Membership facts about the call-response pipeline (for C5 and C10) -/

/-- What `crResponseStep` guarantees about any pair it appends: the pair
records the call/response of a single stem, with the gated similarity and
confidence. -/
def CrStepFact (sim : List ℚ → List ℚ → ℚ) (config : CallResponseConfig)
    (stem_role : String) (call_motif : MotifInstance) (ro : MotifInstance × ℚ)
    (p : CallResponsePair) : Prop :=
  config.min_similarity ≤ sim call_motif.features ro.1.features ∧
  config.min_confidence ≤ p.confidence ∧
  p.from_stem_role = stem_role ∧ p.to_stem_role = stem_role ∧
  p.from_motif_id = call_motif.id ∧ p.to_motif_id = ro.1.id ∧
  p.from_time = call_motif.start_time ∧ p.to_time = ro.1.start_time ∧
  p.time_offset = ro.2

lemma crResponseStep_mem {sim : List ℚ → List ℚ → ℚ} {expFn : ℚ → ℚ}
    {regions : List Region} {bpm min_offset_seconds : ℚ}
    {config : CallResponseConfig} {stem_role : String}
    {call_motif : MotifInstance} {pairs : List CallResponsePair}
    {ro : MotifInstance × ℚ} {p : CallResponsePair}
    (hp : p ∈ crResponseStep sim expFn regions bpm min_offset_seconds config
      stem_role call_motif pairs ro) :
    p ∈ pairs ∨ CrStepFact sim config stem_role call_motif ro p := by
  simp only [crResponseStep] at hp
  split_ifs at hp with h1 h2 h3 h4
  · exact Or.inl hp
  · exact Or.inl hp
  · exact Or.inl hp
  · exact Or.inl hp
  · rw [List.mem_append, List.mem_singleton] at hp
    rcases hp with hp | rfl
    · exact Or.inl hp
    · refine Or.inr ⟨le_of_not_lt h3, le_of_not_lt h4, ?_⟩
      simp [mkCallResponsePair]

lemma find_potential_responses_mem {call_motif : MotifInstance}
    {all_motifs : List MotifInstance} {min_offset_seconds max_offset_seconds : ℚ}
    {ro : MotifInstance × ℚ}
    (h : ro ∈ find_potential_responses call_motif all_motifs min_offset_seconds
      max_offset_seconds) :
    ro.1 ∈ all_motifs ∧ ro.2 = ro.1.start_time - call_motif.start_time ∧
      min_offset_seconds ≤ ro.2 ∧ ro.2 ≤ max_offset_seconds := by
  simp only [find_potential_responses] at h
  rw [List.mem_filterMap] at h
  obtain ⟨a, ha, hfa⟩ := h
  split_ifs at hfa with h1 h2
  rw [Option.some.injEq] at hfa
  subst hfa
  exact ⟨ha, rfl, h2.1, h2.2⟩

lemma crInnerFold_mem {sim : List ℚ → List ℚ → ℚ} {expFn : ℚ → ℚ}
    {regions : List Region} {bpm min_offset_seconds : ℚ}
    {config : CallResponseConfig} {stem_role : String}
    {call_motif : MotifInstance} :
    ∀ (ros : List (MotifInstance × ℚ)) (init : List CallResponsePair)
      {p : CallResponsePair},
      p ∈ ros.foldl (crResponseStep sim expFn regions bpm min_offset_seconds
        config stem_role call_motif) init →
      p ∈ init ∨ ∃ ro ∈ ros, CrStepFact sim config stem_role call_motif ro p
  | [], _, _, hp => Or.inl hp
  | ro :: rest, init, p, hp => by
      rcases crInnerFold_mem rest _ hp with hstep | ⟨ro', hro', hfact⟩
      · rcases crResponseStep_mem hstep with hini | hfact
        · exact Or.inl hini
        · exact Or.inr ⟨ro, List.mem_cons_self _ _, hfact⟩
      · exact Or.inr ⟨ro', List.mem_cons_of_mem _ hro', hfact⟩

lemma crOuterFold_mem {sim : List ℚ → List ℚ → ℚ} {expFn : ℚ → ℚ}
    {regions : List Region} {bpm min_offset_seconds max_offset_seconds : ℚ}
    {config : CallResponseConfig} {stem_role : String}
    {stem_motifs : List MotifInstance} :
    ∀ (calls : List MotifInstance) (init : List CallResponsePair)
      {p : CallResponsePair},
      p ∈ calls.foldl (fun pairs call_motif =>
        (find_potential_responses call_motif stem_motifs min_offset_seconds
            max_offset_seconds).foldl
          (crResponseStep sim expFn regions bpm min_offset_seconds config
            stem_role call_motif) pairs) init →
      p ∈ init ∨ ∃ call ∈ calls,
        ∃ ro ∈ find_potential_responses call stem_motifs min_offset_seconds
          max_offset_seconds, CrStepFact sim config stem_role call ro p
  | [], _, _, hp => Or.inl hp
  | call :: rest, init, p, hp => by
      rcases crOuterFold_mem rest _ hp with hstep | ⟨c, hc, ro, hro, hfact⟩
      · rcases crInnerFold_mem _ _ hstep with hini | ⟨ro, hro, hfact⟩
        · exact Or.inl hini
        · exact Or.inr ⟨call, List.mem_cons_self _ _, ro, hro, hfact⟩
      · exact Or.inr ⟨c, List.mem_cons_of_mem _ hc, ro, hro, hfact⟩

/-- Everything `_detect_call_response_within_stem` guarantees about a pair it
returns. -/
lemma detect_call_response_within_stem_mem {sim : List ℚ → List ℚ → ℚ}
    {expFn : ℚ → ℚ} {stem_motifs : List MotifInstance} {regions : List Region}
    {bpm min_offset_seconds max_offset_seconds : ℚ}
    {config : CallResponseConfig} {stem_role : String} {p : CallResponsePair}
    (hp : p ∈ detect_call_response_within_stem sim expFn stem_motifs regions bpm
      min_offset_seconds max_offset_seconds config stem_role) :
    p.from_stem_role = stem_role ∧ p.to_stem_role = stem_role ∧
    min_offset_seconds ≤ p.time_offset ∧ p.time_offset ≤ max_offset_seconds ∧
    p.to_time - p.from_time = p.time_offset ∧
    config.min_confidence ≤ p.confidence ∧
    ∃ c r, c ∈ stem_motifs ∧ r ∈ stem_motifs ∧ p.from_motif_id = c.id ∧
      p.to_motif_id = r.id ∧
      config.min_similarity ≤ sim c.features r.features := by
  rw [detect_call_response_within_stem] at hp
  rcases crOuterFold_mem _ _ hp with hini | ⟨call, hcall, ro, hro, hfact⟩
  · simp at hini
  · obtain ⟨hsim, hconf, hfrom, hto, hfid, htid, hft, htt, hoff⟩ := hfact
    obtain ⟨hmem, hoeq, holo, hohi⟩ := find_potential_responses_mem hro
    refine ⟨hfrom, hto, hoff ▸ holo, hoff ▸ hohi, ?_, hconf,
      call, ro.1, hcall, hmem, hfid, htid, hsim⟩
    rw [hft, htt, hoff, hoeq]

lemma dedupStep_subset {st : List (String × String) × List CallResponsePair}
    {a : CallResponsePair} {p : CallResponsePair}
    (hp : p ∈ (dedupStep st a).2) : p ∈ st.2 ∨ p = a := by
  rcases st with ⟨seen, uniques⟩
  rw [dedupStep] at hp
  split_ifs at hp with h1
  · cases hfind : uniques.find? (fun q => pairKey q = pairKey a) with
    | none => rw [hfind] at hp; exact Or.inl hp
    | some existing =>
        rw [hfind] at hp
        dsimp only at hp
        split_ifs at hp with h2
        · rw [List.mem_append, List.mem_singleton] at hp
          rcases hp with hp | rfl
          · exact Or.inl ((uniques.erase_sublist existing).mem hp)
          · exact Or.inr rfl
        · exact Or.inl hp
  · rw [List.mem_append, List.mem_singleton] at hp
    rcases hp with hp | rfl
    · exact Or.inl hp
    · exact Or.inr rfl

lemma deduplicate_pairs_subset_aux :
    ∀ (pairs : List CallResponsePair)
      (st : List (String × String) × List CallResponsePair)
      {p : CallResponsePair}, p ∈ (pairs.foldl dedupStep st).2 →
      p ∈ st.2 ∨ p ∈ pairs
  | [], _, _, hp => Or.inl hp
  | a :: rest, st, p, hp => by
      rcases deduplicate_pairs_subset_aux rest (dedupStep st a) hp with h | h
      · rcases dedupStep_subset h with h | rfl
        · exact Or.inl h
        · exact Or.inr (List.mem_cons_self _ _)
      · exact Or.inr (List.mem_cons_of_mem _ h)

/-- Deduplication only ever keeps input pairs. -/
lemma deduplicate_pairs_subset {pairs : List CallResponsePair}
    {p : CallResponsePair} (hp : p ∈ deduplicate_pairs pairs) : p ∈ pairs := by
  rw [deduplicate_pairs] at hp
  rcases deduplicate_pairs_subset_aux pairs ([], []) hp with h | h
  · simp at h
  · exact h

/-- Ranking and filtering only ever keeps input pairs. -/
lemma rank_and_filter_pairs_subset {pairs : List CallResponsePair}
    {config : CallResponseConfig} {p : CallResponsePair}
    (hp : p ∈ rank_and_filter_pairs pairs config) : p ∈ pairs := by
  rw [rank_and_filter_pairs] at hp
  have hfil : ∀ {q : CallResponsePair},
      q ∈ (pairs.filter fun r =>
        if config.min_confidence ≤ r.confidence then true else false).insertionSort
          confGE → q ∈ pairs := by
    intro q hq
    rw [List.mem_insertionSort] at hq
    exact List.mem_of_mem_filter hq
  rcases hmax : config.max_responses_per_call with - | n
  · rw [hmax] at hp
    exact hfil hp
  · rw [hmax] at hp
    dsimp only at hp
    rw [List.mem_insertionSort, List.mem_flatMap] at hp
    obtain ⟨cid, _, hq⟩ := hp
    exact hfil (List.mem_of_mem_filter (List.mem_of_mem_take hq))

/-- Every grouped motif carries its group's stem role and comes from the
input list. -/
lemma addToStemGroup_fact {acc : List (String × List MotifInstance)}
    {m : MotifInstance} {P : MotifInstance → Prop}
    (hacc : ∀ e ∈ acc, ∀ x ∈ e.2, x.stem_role = e.1 ∧ P x) (hm : P m) :
    ∀ e ∈ addToStemGroup acc m, ∀ x ∈ e.2, x.stem_role = e.1 ∧ P x := by
  induction acc with
  | nil =>
      intro e he x hx
      rw [addToStemGroup, List.mem_singleton] at he
      subst he
      rw [List.mem_singleton] at hx
      subst hx
      exact ⟨rfl, hm⟩
  | cons kms rest ih =>
      intro e he x hx
      rw [addToStemGroup] at he
      split_ifs at he with hk
      · rw [List.mem_cons] at he
        rcases he with rfl | he
        · rw [List.mem_append, List.mem_singleton] at hx
          rcases hx with hx | rfl
          · exact hacc kms (List.mem_cons_self _ _) x hx
          · exact ⟨hk.symm, hm⟩
        · exact hacc e (List.mem_cons_of_mem _ he) x hx
      · rw [List.mem_cons] at he
        rcases he with he | he
        · rw [he] at hx ⊢
          exact hacc kms (List.mem_cons_self _ _) x hx
        · exact ih (fun e' he' => hacc e' (List.mem_cons_of_mem _ he')) e he x hx

lemma group_by_stem_fact_aux {P : MotifInstance → Prop} {use_full_mix : Bool} :
    ∀ (l : List MotifInstance) (acc : List (String × List MotifInstance)),
      (∀ e ∈ acc, ∀ x ∈ e.2, x.stem_role = e.1 ∧ P x) → (∀ m ∈ l, P m) →
      ∀ e ∈ l.foldl (fun acc m =>
          if crKeepMotif use_full_mix m then addToStemGroup acc m else acc) acc,
        ∀ x ∈ e.2, x.stem_role = e.1 ∧ P x
  | [], _, hacc, _ => hacc
  | m :: rest, acc, hacc, hl => by
      apply group_by_stem_fact_aux rest
      · dsimp only
        split_ifs with hk
        · exact addToStemGroup_fact hacc (hl m (List.mem_cons_self _ _))
        · exact hacc
      · exact fun x hx => hl x (List.mem_cons_of_mem _ hx)

/-- Every entry of the stem grouping contains only motifs of that stem role
drawn from the input. -/
lemma group_by_stem_fact {motifs : List MotifInstance} {use_full_mix : Bool}
    {e : String × List MotifInstance} (he : e ∈ group_by_stem motifs use_full_mix) :
    ∀ x ∈ e.2, x.stem_role = e.1 ∧ x ∈ motifs := by
  rw [group_by_stem] at he
  exact group_by_stem_fact_aux motifs [] (by simp) (fun m hm => hm) e he

/-- **C10.**  For every input motif list and configuration — including
`use_full_mix = true` — every pair returned by `detect_call_response` stays
within one stem: `from_stem_role = to_stem_role` and `is_inter_stem` is
`false`, because candidate responses are only searched within the call's own
stem group. -/
theorem C10_pairs_never_inter_stem (sim : List ℚ → List ℚ → ℚ) (expFn : ℚ → ℚ)
    (motifs : List MotifInstance) (regions : List Region) (bpm : ℚ)
    (config : CallResponseConfig) (p : CallResponsePair)
    (hp : p ∈ detect_call_response sim expFn motifs regions bpm config) :
    p.from_stem_role = p.to_stem_role ∧ p.is_inter_stem = false := by
  rw [detect_call_response] at hp
  have hall := deduplicate_pairs_subset (rank_and_filter_pairs_subset hp)
  rw [List.mem_flatMap] at hall
  obtain ⟨g, _, hpg⟩ := hall
  obtain ⟨hfrom, hto, -⟩ := detect_call_response_within_stem_mem hpg
  have heq : p.from_stem_role = p.to_stem_role := hfrom.trans hto.symm
  refine ⟨heq, ?_⟩
  simp [CallResponsePair.is_inter_stem, heq]

/-- **C5.**  Every pair returned by `detect_call_response` has its time
offset within the configured bar window converted through the BPM
(`bars_to_seconds`), where `time_offset = to_time − from_time`; its
confidence is at least `min_confidence`; and its endpoints name motifs of the
input whose embedding similarity is at least `min_similarity`. -/
theorem C5_pairs_respect_thresholds (sim : List ℚ → List ℚ → ℚ) (expFn : ℚ → ℚ)
    (motifs : List MotifInstance) (regions : List Region) (bpm : ℚ)
    (config : CallResponseConfig) (p : CallResponsePair)
    (hp : p ∈ detect_call_response sim expFn motifs regions bpm config) :
    bars_to_seconds config.min_offset_bars bpm ≤ p.to_time - p.from_time ∧
    p.to_time - p.from_time ≤ bars_to_seconds config.max_offset_bars bpm ∧
    config.min_confidence ≤ p.confidence ∧
    ∃ c r, c ∈ motifs ∧ r ∈ motifs ∧ p.from_motif_id = c.id ∧
      p.to_motif_id = r.id ∧
      config.min_similarity ≤ sim c.features r.features := by
  rw [detect_call_response] at hp
  have hall := deduplicate_pairs_subset (rank_and_filter_pairs_subset hp)
  rw [List.mem_flatMap] at hall
  obtain ⟨g, hg, hpg⟩ := hall
  obtain ⟨-, -, hlo, hhi, hofe, hconf, c, r, hc, hr, hcid, hrid, hsim⟩ :=
    detect_call_response_within_stem_mem hpg
  have hcm := (group_by_stem_fact hg c hc).2
  have hrm := (group_by_stem_fact hg r hr).2
  rw [hofe]
  exact ⟨hlo, hhi, hconf, c, r, hcm, hrm, hcid, hrid, hsim⟩

/-- Constant similarity oracle (identical embeddings). -/
def simOne : List ℚ → List ℚ → ℚ := fun _ _ => 1

/-- Exponential oracle stub (never reached in the witness scenario: the
4-second offset lies exactly on the rhythmic grid). -/
def expZero : ℚ → ℚ := fun _ => 0

/-- A drums motif at 0 s. -/
def crMotifA : MotifInstance :=
  { id := "a", stem_role := "drums", start_time := 0, end_time := 4, features := [1] }

/-- A drums motif at 4 s (2 bars later at 120 BPM). -/
def crMotifB : MotifInstance :=
  { id := "b", stem_role := "drums", start_time := 4, end_time := 8, features := [1] }

/-- The single pair the default-config detector returns for the two motifs
above: similarity 1 and on-grid alignment give confidence 1. -/
def crWitnessPair : CallResponsePair :=
  { id := "call_response_drums_0", from_motif_id := "a", to_motif_id := "b",
    from_stem_role := "drums", to_stem_role := "drums",
    from_time := 0, to_time := 4, time_offset := 4, confidence := 1,
    region_id := none }

/-- Evaluation of the call-response pipeline on the two-motif scenario. -/
lemma detect_call_response_example_eval :
    detect_call_response simOne expZero [crMotifA, crMotifB] [] 120 {} =
      [crWitnessPair] := by
  norm_num +decide [detect_call_response, group_by_stem, crKeepMotif, addToStemGroup,
    bars_to_seconds, detect_call_response_within_stem, find_potential_responses,
    crResponseStep, compute_confidence, compute_rhythmic_alignment_score, pyAbs,
    mkCallResponsePair, find_region_for_pair, deduplicate_pairs, dedupStep, pairKey,
    rank_and_filter_pairs, confGE, firstSeenKeys, simOne, expZero,
    crMotifA, crMotifB, crWitnessPair, List.foldl, List.filterMap, List.filter,
    List.insertionSort, List.orderedInsert, List.find?, List.flatMap]

/-- Witness for C10 on the two-motif scenario. -/
theorem C10_pairs_never_inter_stem_witness :
    crWitnessPair.from_stem_role = crWitnessPair.to_stem_role ∧
    crWitnessPair.is_inter_stem = false :=
  C10_pairs_never_inter_stem simOne expZero [crMotifA, crMotifB] [] 120 {}
    crWitnessPair
    (by rw [detect_call_response_example_eval]; exact List.mem_singleton_self _)

/-- Witness for C5 on the two-motif scenario. -/
theorem C5_pairs_respect_thresholds_witness :
    bars_to_seconds ({} : CallResponseConfig).min_offset_bars 120 ≤
      crWitnessPair.to_time - crWitnessPair.from_time ∧
    crWitnessPair.to_time - crWitnessPair.from_time ≤
      bars_to_seconds ({} : CallResponseConfig).max_offset_bars 120 ∧
    ({} : CallResponseConfig).min_confidence ≤ crWitnessPair.confidence ∧
    ∃ c r, c ∈ [crMotifA, crMotifB] ∧ r ∈ [crMotifA, crMotifB] ∧
      crWitnessPair.from_motif_id = c.id ∧ crWitnessPair.to_motif_id = r.id ∧
      ({} : CallResponseConfig).min_similarity ≤ simOne c.features r.features :=
  C5_pairs_respect_thresholds simOne expZero [crMotifA, crMotifB] [] 120 {}
    crWitnessPair
    (by rw [detect_call_response_example_eval]; exact List.mem_singleton_self _)

/-! ### Fill confidence (C4) -/

/-- **C4 (amended).**  `_detect_fills_at_boundary` emits no Fill when no stem
is active, and when it emits one, the confidence equals the
normalized-excess formula applied to `active_stems[0]` — the *first* active
stem in the fixed iteration order (drums, bass, vocals, instruments), not
the most-elevated one — with the 0.5 fallback when that stem's threshold is
at least 1; in consequence every emitted Fill has confidence in [0, 1]. -/
theorem C4_fill_confidence_first_active_stem :
    (∀ (boundary_time : ℚ) (downstream_region : Region)
       (stem_curves : List (String × List (ℚ × ℚ))) (stem_roles : List String)
       (bpm : ℚ) (config : FillConfig),
       fillActiveData downstream_region stem_curves stem_roles
         (max 0 (boundary_time - bars_to_seconds config.pre_boundary_window_bars bpm))
         boundary_time config = [] →
       detect_fills_at_boundary boundary_time downstream_region stem_curves
         stem_roles bpm config = none) ∧
    (∀ (boundary_time : ℚ) (downstream_region : Region)
       (stem_curves : List (String × List (ℚ × ℚ))) (stem_roles : List String)
       (bpm : ℚ) (config : FillConfig) (fill : Fill),
       detect_fills_at_boundary boundary_time downstream_region stem_curves
         stem_roles bpm config = some fill →
       ∃ best rest, fillActiveData downstream_region stem_curves stem_roles
           (max 0 (boundary_time - bars_to_seconds config.pre_boundary_window_bars bpm))
           boundary_time config = best :: rest ∧
         fill.confidence = fillConfidence best config ∧
         0 ≤ fill.confidence ∧ fill.confidence ≤ 1) := by
  have hbounds : ∀ (best : StemWindowData) (config : FillConfig),
      0 ≤ fillConfidence best config ∧ fillConfidence best config ≤ 1 := by
    intro best config
    rw [fillConfidence]
    constructor
    · exact le_max_left _ _
    · apply max_le
      · norm_num
      · split_ifs with h
        · exact min_le_left _ _
        · norm_num
  constructor
  · intro boundary_time downstream_region stem_curves stem_roles bpm config hempty
    rw [detect_fills_at_boundary]
    split_ifs with hwin
    · rfl
    · rw [hempty]
  · intro boundary_time downstream_region stem_curves stem_roles bpm config fill hfill
    rw [detect_fills_at_boundary] at hfill
    split_ifs at hfill with hwin
    rcases hactive : fillActiveData downstream_region stem_curves stem_roles
        (max 0 (boundary_time - bars_to_seconds config.pre_boundary_window_bars bpm))
        boundary_time config with - | ⟨best, rest⟩
    · rw [hactive] at hfill
      exact absurd hfill (by simp)
    · rw [hactive] at hfill
      dsimp only at hfill
      rw [Option.some.injEq] at hfill
      subst hfill
      exact ⟨best, rest, rfl, rfl, hbounds best config⟩

/-- The downstream region of the fill counterexample. -/
def fillExampleRegion : Region :=
  { id := "region_2", name := "Drop", type := "high_energy", start := 8,
    stop := 16, motifs := [], fills := [], callResponse := [] }

/-- Transient-density frames: the drums curve has window average 0.4, the
bass curve 0.9, both above the 0.3 activity threshold. -/
def fillExampleCurves : List (String × List (ℚ × ℚ)) :=
  [("drums", [(7, 0.4)]), ("bass", [(7, 0.9)])]

/-- The per-stem window data produced for the drums stem. -/
def fillDrumsData : StemWindowData :=
  { role := "drums", window_frames := [(7, 0.4)], avg := 0.4, region_avg := 0 }

/-- The per-stem window data produced for the bass stem. -/
def fillBassData : StemWindowData :=
  { role := "bass", window_frames := [(7, 0.9)], avg := 0.9, region_avg := 0 }

/-- The Fill the source emits at the 8-second boundary of the example. -/
def fillExampleFill : Fill :=
  { id := "fill_region_2_700", time := 7, stem_roles := ["drums", "bass"],
    region_id := "region_2", confidence := 1/7,
    fill_type := some "multi_stem_fill" }

/-- Evaluation of the fill detector on the two-active-stem example. -/
lemma detect_fills_example_eval :
    detect_fills_at_boundary 8 fillExampleRegion fillExampleCurves
      ["drums", "bass", "vocals", "instruments"] 120 {} = some fillExampleFill := by
  norm_num +decide [detect_fills_at_boundary, fillActiveData, fillStemData,
    region_average_transient_density, fillThreshold, fillPeak, peakFrame,
    fillConfidence, fillType, listMean, bars_to_seconds, pyInt,
    fillExampleRegion, fillExampleCurves, fillExampleFill,
    List.filterMap, List.filter, List.find?, List.foldl]

/-- Evaluation of the active-stem data on the example: drums first, bass
second, and bass is the more elevated stem. -/
lemma fillActiveData_example_eval :
    fillActiveData fillExampleRegion fillExampleCurves
      ["drums", "bass", "vocals", "instruments"]
      (max 0 (8 - bars_to_seconds ({} : FillConfig).pre_boundary_window_bars 120)) 8 {} =
      [fillDrumsData, fillBassData] := by
  norm_num +decide [fillActiveData, fillStemData,
    region_average_transient_density, fillThreshold, listMean, bars_to_seconds,
    fillExampleRegion, fillExampleCurves, fillDrumsData, fillBassData,
    List.filterMap, List.filter, List.find?]

/-- **C4, counterexample.**  At a boundary where drums (window density 0.4)
and bass (window density 0.9) are both active with threshold 0.3, the
most-elevated active stem is bass and its normalized excess is
(0.9 − 0.3)/(1 − 0.3) = 6/7, but the source computes the confidence from
`active_stems[0]` — drums — and emits 1/7. -/
theorem C4_confidence_counterexample :
    detect_fills_at_boundary 8 fillExampleRegion fillExampleCurves
      ["drums", "bass", "vocals", "instruments"] 120 {} = some fillExampleFill ∧
    fillActiveData fillExampleRegion fillExampleCurves
      ["drums", "bass", "vocals", "instruments"]
      (max 0 (8 - bars_to_seconds ({} : FillConfig).pre_boundary_window_bars 120)) 8 {} =
      [fillDrumsData, fillBassData] ∧
    fillDrumsData.avg < fillBassData.avg ∧
    fillConfidence fillBassData {} = 6/7 ∧
    fillExampleFill.confidence = 1/7 ∧ ((1 : ℚ)/7) ≠ 6/7 := by
  refine ⟨detect_fills_example_eval, fillActiveData_example_eval, ?_, ?_, rfl, by norm_num⟩
  · norm_num [fillDrumsData, fillBassData]
  · norm_num [fillConfidence, fillThreshold, fillBassData]

/-- Witness for C4's amended theorem on the two-active-stem example. -/
theorem C4_fill_confidence_first_active_stem_witness :
    ∃ best rest, fillActiveData fillExampleRegion fillExampleCurves
        ["drums", "bass", "vocals", "instruments"]
        (max 0 (8 - bars_to_seconds ({} : FillConfig).pre_boundary_window_bars 120))
        8 {} = best :: rest ∧
      fillExampleFill.confidence = fillConfidence best {} ∧
      0 ≤ fillExampleFill.confidence ∧ fillExampleFill.confidence ≤ 1 :=
  C4_fill_confidence_first_active_stem.2 8 fillExampleRegion fillExampleCurves
    ["drums", "bass", "vocals", "instruments"] 120 {} fillExampleFill
    detect_fills_example_eval

/-! ### Clustering (C7) -/

lemma argminGo_spec :
    ∀ (xs : List ℚ) (bi : ℕ) (bd : ℚ) (i : ℕ),
      ((xs.foldl argminStep (bi, bd, i)).1 = bi ∧
          (xs.foldl argminStep (bi, bd, i)).2.1 = bd ∨
        ∃ j, j < xs.length ∧ (xs.foldl argminStep (bi, bd, i)).1 = i + j ∧
          (xs.foldl argminStep (bi, bd, i)).2.1 = xs.getD j 0) ∧
      (xs.foldl argminStep (bi, bd, i)).2.1 ≤ bd ∧
      ∀ j, j < xs.length → (xs.foldl argminStep (bi, bd, i)).2.1 ≤ xs.getD j 0
  | [], bi, bd, i => by simp
  | d :: rest, bi, bd, i => by
      rw [List.foldl_cons, argminStep]
      split_ifs with hd
      · obtain ⟨hpos, hle, hmin⟩ := argminGo_spec rest i d (i + 1)
        refine ⟨?_, (hle.trans_lt hd).le, ?_⟩
        · rcases hpos with ⟨h1, h2⟩ | ⟨j, hj, h1, h2⟩
          · exact Or.inr ⟨0, by simp, by simpa using h1, by simpa using h2⟩
          · refine Or.inr ⟨j + 1, by simpa using hj, ?_, by simpa using h2⟩
            rw [h1]
            omega
        · intro j hj
          match j with
          | 0 => simpa using hle
          | k + 1 =>
              have hk : k < rest.length := by simpa using hj
              simpa using hmin k hk
      · obtain ⟨hpos, hle, hmin⟩ := argminGo_spec rest bi bd (i + 1)
        refine ⟨?_, hle, ?_⟩
        · rcases hpos with ⟨h1, h2⟩ | ⟨j, hj, h1, h2⟩
          · exact Or.inl ⟨h1, h2⟩
          · refine Or.inr ⟨j + 1, by simpa using hj, ?_, by simpa using h2⟩
            rw [h1]
            omega
        · intro j hj
          match j with
          | 0 => simpa using hle.trans (le_of_not_lt hd)
          | k + 1 =>
              have hk : k < rest.length := by simpa using hj
              simpa using hmin k hk

/-- `np.argmin` of a nonempty list: in range, and first-minimal. -/
lemma pyArgmin_spec (x : ℚ) (xs : List ℚ) :
    pyArgmin (x :: xs) < (x :: xs).length ∧
    ∀ j, j < (x :: xs).length →
      (x :: xs).getD (pyArgmin (x :: xs)) 0 ≤ (x :: xs).getD j 0 := by
  obtain ⟨hpos, hle, hmin⟩ := argminGo_spec xs 0 x 1
  rw [pyArgmin]
  have hval : (x :: xs).getD ((xs.foldl argminStep (0, x, 1)).1) 0 =
      (xs.foldl argminStep (0, x, 1)).2.1 := by
    rcases hpos with ⟨h1, h2⟩ | ⟨j, hj, h1, h2⟩
    · rw [h1, h2]
      rfl
    · rw [h1, h2]
      have : 1 + j = j + 1 := by omega
      rw [this]
      simp [List.getD]
  constructor
  · rcases hpos with ⟨h1, -⟩ | ⟨j, hj, h1, -⟩
    · rw [h1]
      simp
    · rw [h1]
      simp only [List.length_cons]
      omega
  · intro j hj
    rw [hval]
    match j with
    | 0 => simpa using hle
    | k + 1 =>
        have hk : k < xs.length := by simpa using hj
        simpa using hmin k hk

lemma assocSet_flatMap_mem :
    ∀ {groups : List (String × List ℕ)} {key : String} {v : List ℕ} {x : ℕ},
      x ∈ (assocSet groups key v).flatMap (·.2) →
      x ∈ groups.flatMap (·.2) ∨ x ∈ v := by
  intro groups
  induction groups with
  | nil =>
      intro key v x hx
      rw [assocSet] at hx
      simp only [List.flatMap_cons, List.flatMap_nil, List.append_nil] at hx
      exact Or.inr hx
  | cons kw rest ih =>
      intro key v x hx
      rw [assocSet] at hx
      split_ifs at hx with hk
      · rw [List.flatMap_cons, List.mem_append] at hx
        rcases hx with hx | hx
        · exact Or.inr hx
        · exact Or.inl (by simp only [List.flatMap_cons, List.mem_append]; exact Or.inr hx)
      · rw [List.flatMap_cons, List.mem_append] at hx
        rcases hx with hx | hx
        · exact Or.inl (by simp only [List.flatMap_cons, List.mem_append]; exact Or.inl hx)
        · rcases ih hx with hx | hx
          · exact Or.inl (by simp only [List.flatMap_cons, List.mem_append]; exact Or.inr hx)
          · exact Or.inr hx

lemma assocSet_keys_mem :
    ∀ {groups : List (String × List ℕ)} {key : String} {v : List ℕ}
      {e : String × List ℕ}, e ∈ assocSet groups key v →
      e.1 = key ∨ e.1 ∈ groups.map Prod.fst := by
  intro groups
  induction groups with
  | nil =>
      intro key v e he
      rw [assocSet, List.mem_singleton] at he
      subst he
      exact Or.inl rfl
  | cons kw rest ih =>
      intro key v e he
      rw [assocSet] at he
      split_ifs at he with hk
      · rw [List.mem_cons] at he
        rcases he with he | he
        · left
          rw [he]
          exact hk
        · right
          rw [List.map_cons, List.mem_cons]
          exact Or.inr (List.mem_map_of_mem _ he)
      · rw [List.mem_cons] at he
        rcases he with he | he
        · right
          rw [he, List.map_cons, List.mem_cons]
          exact Or.inl rfl
        · rcases ih he with h | h
          · exact Or.inl h
          · right
            rw [List.map_cons, List.mem_cons]
            exact Or.inr h

lemma assocSet_nodup :
    ∀ {groups : List (String × List ℕ)} {key : String} {k : ℕ},
      (groups.flatMap (·.2)).Nodup → (∀ i ∈ groups.flatMap (·.2), i < k) →
      ((assocSet groups key [k]).flatMap (·.2)).Nodup := by
  intro groups
  induction groups with
  | nil =>
      intro key k _ _
      rw [assocSet]
      simp
  | cons kw rest ih =>
      intro key k hn hb
      rw [List.flatMap_cons] at hn hb
      rw [List.nodup_append] at hn
      rw [assocSet]
      split_ifs with hk
      · rw [List.flatMap_cons, List.nodup_append]
        refine ⟨List.nodup_singleton _, hn.2.1, ?_⟩
        intro x hx
        rw [List.mem_singleton] at hx
        subst hx
        intro hmem
        exact absurd (hb x (by rw [List.mem_append]; exact Or.inr hmem)) (lt_irrefl _)
      · rw [List.flatMap_cons, List.nodup_append]
        refine ⟨hn.1, ih hn.2.1 (fun i hi => hb i (by rw [List.mem_append]; exact Or.inr hi)), ?_⟩
        intro x hx hmem
        rcases assocSet_flatMap_mem hmem with hm | hm
        · exact hn.2.2 hx hm
        · rw [List.mem_singleton] at hm
          subst hm
          exact absurd (hb x (by rw [List.mem_append]; exact Or.inl hx)) (lt_irrefl _)

lemma assocAppend_flatMap_mem :
    ∀ {groups : List (String × List ℕ)} {key : String} {idx : ℕ} {x : ℕ},
      x ∈ (assocAppend groups key idx).flatMap (·.2) →
      x ∈ groups.flatMap (·.2) ∨ x = idx := by
  intro groups
  induction groups with
  | nil =>
      intro key idx x hx
      rw [assocAppend] at hx
      simp only [List.flatMap_cons, List.flatMap_nil, List.append_nil,
        List.mem_singleton] at hx
      exact Or.inr hx
  | cons kw rest ih =>
      intro key idx x hx
      rw [assocAppend] at hx
      split_ifs at hx with hk
      · rw [List.flatMap_cons, List.mem_append] at hx
        rcases hx with hx | hx
        · rw [List.mem_append, List.mem_singleton] at hx
          rcases hx with hx | hx
          · exact Or.inl (by simp only [List.flatMap_cons, List.mem_append]; exact Or.inl hx)
          · exact Or.inr hx
        · exact Or.inl (by simp only [List.flatMap_cons, List.mem_append]; exact Or.inr hx)
      · rw [List.flatMap_cons, List.mem_append] at hx
        rcases hx with hx | hx
        · exact Or.inl (by simp only [List.flatMap_cons, List.mem_append]; exact Or.inl hx)
        · rcases ih hx with hx | hx
          · exact Or.inl (by simp only [List.flatMap_cons, List.mem_append]; exact Or.inr hx)
          · exact Or.inr hx

lemma assocAppend_keys_mem :
    ∀ {groups : List (String × List ℕ)} {key : String} {idx : ℕ}
      {e : String × List ℕ}, e ∈ assocAppend groups key idx →
      e.1 = key ∨ e.1 ∈ groups.map Prod.fst := by
  intro groups
  induction groups with
  | nil =>
      intro key idx e he
      rw [assocAppend, List.mem_singleton] at he
      subst he
      exact Or.inl rfl
  | cons kw rest ih =>
      intro key idx e he
      rw [assocAppend] at he
      split_ifs at he with hk
      · rw [List.mem_cons] at he
        rcases he with he | he
        · left
          rw [he]
          exact hk
        · right
          rw [List.map_cons, List.mem_cons]
          exact Or.inr (List.mem_map_of_mem _ he)
      · rw [List.mem_cons] at he
        rcases he with he | he
        · right
          rw [he, List.map_cons, List.mem_cons]
          exact Or.inl rfl
        · rcases ih he with h | h
          · exact Or.inl h
          · right
            rw [List.map_cons, List.mem_cons]
            exact Or.inr h

lemma assocAppend_nodup :
    ∀ {groups : List (String × List ℕ)} {key : String} {k : ℕ},
      (groups.flatMap (·.2)).Nodup → (∀ i ∈ groups.flatMap (·.2), i < k) →
      ((assocAppend groups key k).flatMap (·.2)).Nodup := by
  intro groups
  induction groups with
  | nil =>
      intro key k _ _
      rw [assocAppend]
      simp
  | cons kw rest ih =>
      intro key k hn hb
      rw [List.flatMap_cons] at hn hb
      rw [List.nodup_append] at hn
      rw [assocAppend]
      split_ifs with hk
      · rw [List.flatMap_cons, List.nodup_append]
        refine ⟨?_, hn.2.1, ?_⟩
        · rw [List.nodup_append]
          refine ⟨hn.1, List.nodup_singleton _, ?_⟩
          intro x hx hmem
          rw [List.mem_singleton] at hmem
          subst hmem
          exact absurd (hb x (by rw [List.mem_append]; exact Or.inl hx)) (lt_irrefl _)
        · intro x hx hmem
          rw [List.mem_append, List.mem_singleton] at hx
          rcases hx with hx | hx
          · exact hn.2.2 hx hmem
          · subst hx
            exact absurd (hb x (by rw [List.mem_append]; exact Or.inr hmem)) (lt_irrefl _)
      · rw [List.flatMap_cons, List.nodup_append]
        refine ⟨hn.1, ih hn.2.1 (fun i hi => hb i (by rw [List.mem_append]; exact Or.inr hi)), ?_⟩
        intro x hx hmem
        rcases assocAppend_flatMap_mem hmem with hm | hm
        · exact hn.2.2 hx hm
        · subst hm
          exact absurd (hb x (by rw [List.mem_append]; exact Or.inl hx)) (lt_irrefl _)

/-- Well-formedness of the `groups` dict after processing indices below
`bound`: globally distinct member indices, all below `bound`, and all keys
carrying the stem prefix. -/
def GroupsWF (pre : String) (bound : ℕ) (groups : List (String × List ℕ)) : Prop :=
  (groups.flatMap (·.2)).Nodup ∧ (∀ i ∈ groups.flatMap (·.2), i < bound) ∧
  ∀ e ∈ groups, ∃ t, e.1 = pre ++ t

lemma buildStep_inv {pre : String} {st : List (String × List ℕ) × List (ℕ × String)}
    {p : ℕ × ℤ} (h : GroupsWF pre p.1 st.1)
    (ha : st.2.map Prod.fst = List.range p.1) :
    GroupsWF pre (p.1 + 1) (buildStep pre st p).1 ∧
      (buildStep pre st p).2.map Prod.fst = List.range (p.1 + 1) := by
  rcases st with ⟨groups, assigns⟩
  rcases p with ⟨idx, label⟩
  obtain ⟨hn, hb, hkey⟩ := h
  dsimp only at hn hb hkey ha ⊢
  rw [buildStep]
  split_ifs with hl
  · refine ⟨⟨assocSet_nodup hn hb, ?_, ?_⟩, ?_⟩
    · intro i hi
      rcases assocSet_flatMap_mem hi with hm | hm
      · exact (hb i hm).trans (Nat.lt_succ_self _)
      · rw [List.mem_singleton] at hm
        subst hm
        exact Nat.lt_succ_self _
    · intro e he
      rcases assocSet_keys_mem he with hk | hk
      · exact ⟨"motif_group_" ++ toString groups.length, by rw [hk, String.append_assoc]⟩
      · rw [List.mem_map] at hk
        obtain ⟨e', he', hke⟩ := hk
        obtain ⟨t, ht⟩ := hkey e' he'
        exact ⟨t, by rw [← hke, ht]⟩
    · rw [List.map_append, ha, List.range_succ]
      rfl
  · refine ⟨⟨assocAppend_nodup hn hb, ?_, ?_⟩, ?_⟩
    · intro i hi
      rcases assocAppend_flatMap_mem hi with hm | hm
      · exact (hb i hm).trans (Nat.lt_succ_self _)
      · subst hm
        exact Nat.lt_succ_self _
    · intro e he
      rcases assocAppend_keys_mem he with hk | hk
      · exact ⟨"motif_group_" ++ toString label, by rw [hk, String.append_assoc]⟩
      · rw [List.mem_map] at hk
        obtain ⟨e', he', hke⟩ := hk
        obtain ⟨t, ht⟩ := hkey e' he'
        exact ⟨t, by rw [← hke, ht]⟩
    · rw [List.map_append, ha, List.range_succ]
      rfl

lemma buildGroupsGo_inv {pre : String} :
    ∀ (ps : List (ℕ × ℤ)) (k : ℕ)
      (st : List (String × List ℕ) × List (ℕ × String)),
      ps.map Prod.fst = List.range' k ps.length →
      GroupsWF pre k st.1 → st.2.map Prod.fst = List.range k →
      GroupsWF pre (k + ps.length) (ps.foldl (buildStep pre) st).1 ∧
        (ps.foldl (buildStep pre) st).2.map Prod.fst = List.range (k + ps.length)
  | [], k, st, _, hg, ha => by simpa using ⟨hg, ha⟩
  | p :: rest, k, st, hmap, hg, ha => by
      rw [List.map_cons, List.length_cons, List.range'_succ] at hmap
      have hp1 : p.1 = k := (List.cons.injEq _ _ _ _).mp hmap |>.1
      have hrest : rest.map Prod.fst = List.range' (k + 1) rest.length :=
        (List.cons.injEq _ _ _ _).mp hmap |>.2
      rw [List.foldl_cons]
      have hstep := @buildStep_inv pre st p (hp1 ▸ hg) (hp1 ▸ ha)
      rw [hp1] at hstep
      have := buildGroupsGo_inv rest (k + 1) (buildStep pre st p) hrest hstep.1 hstep.2
      rw [List.length_cons]
      have harith : k + (rest.length + 1) = k + 1 + rest.length := by omega
      rw [harith]
      exact this

/-- The invariant of the finished group-building loop. -/
lemma buildGroups_inv (pre : String) (labels : List ℤ) :
    GroupsWF pre labels.length (buildGroups pre labels).1 ∧
      (buildGroups pre labels).2.map Prod.fst = List.range labels.length := by
  have h := @buildGroupsGo_inv pre labels.enum 0 ([], [])
    (by rw [List.enum_map_fst, List.enum_length, List.range_eq_range'])
    ⟨List.nodup_nil, by simp, by simp⟩ (by simp)
  rw [buildGroups]
  simpa [List.enum_length] using h

instance : Inhabited MotifInstance :=
  ⟨{ id := "", stem_role := "", start_time := 0, end_time := 0, features := [] }⟩

/-- Two entries of a globally-nodup group list sharing a member index are the
same entry. -/
lemma flatMap_nodup_entry_unique :
    ∀ {gs : List (String × List ℕ)}, ((gs.flatMap (·.2)).Nodup) →
      ∀ {e1 e2 : String × List ℕ}, e1 ∈ gs → e2 ∈ gs →
        ∀ {i : ℕ}, i ∈ e1.2 → i ∈ e2.2 → e1 = e2 := by
  intro gs
  induction gs with
  | nil =>
      intro _ e1 e2 h1 _ _ _ _
      exact absurd h1 (List.not_mem_nil _)
  | cons g rest ih =>
      intro hn e1 e2 h1 h2 i m1 m2
      rw [List.flatMap_cons, List.nodup_append] at hn
      rw [List.mem_cons] at h1 h2
      rcases h1 with h1 | h1
      · rcases h2 with h2 | h2
        · rw [h1, h2]
        · subst h1
          exact (hn.2.2 m1 (List.mem_flatMap.mpr ⟨e2, h2, m2⟩)).elim
      · rcases h2 with h2 | h2
        · subst h2
          exact (hn.2.2 m2 (List.mem_flatMap.mpr ⟨e1, h1, m1⟩)).elim
        · exact ih hn.2.1 h1 h2 m1 m2

/-- Each entry of a globally-nodup group list has nodup members. -/
lemma flatMap_nodup_entry :
    ∀ {gs : List (String × List ℕ)}, ((gs.flatMap (·.2)).Nodup) →
      ∀ {e : String × List ℕ}, e ∈ gs → e.2.Nodup := by
  intro gs
  induction gs with
  | nil =>
      intro _ e he
      exact absurd he (List.not_mem_nil _)
  | cons g rest ih =>
      intro hn e he
      rw [List.flatMap_cons, List.nodup_append] at hn
      rw [List.mem_cons] at he
      rcases he with he | he
      · rw [he]
        exact hn.1
      · exact ih hn.2.1 he

/-- A non-exemplar position of a group entry is flagged by the variation
loop. -/
lemma mem_variationIdxs_of {instances : List MotifInstance}
    {groups : List (String × List ℕ)} {e : String × List ℕ} (he : e ∈ groups)
    {j : ℕ} (hj : j < e.2.length) (hne : j ≠ groupExemplar instances e.2) :
    e.2[j] ∈ variationIdxs instances groups := by
  rw [variationIdxs, List.mem_flatMap]
  refine ⟨e, he, ?_⟩
  rw [List.mem_filterMap]
  refine ⟨(j, e.2[j]), ?_, ?_⟩
  · exact List.mk_mem_enum_iff_getElem?.mpr (List.getElem?_eq_getElem hj)
  · rw [if_neg hne]

/-- The exemplar position of a group entry is never flagged (this needs the
global nodup invariant: the exemplar index must not reappear at a
non-exemplar position of some entry). -/
lemma not_mem_variationIdxs {instances : List MotifInstance}
    {groups : List (String × List ℕ)}
    (hnd : ((groups.flatMap (·.2)).Nodup)) {e : String × List ℕ}
    (he : e ∈ groups) {j : ℕ} (hj : j < e.2.length)
    (hex : j = groupExemplar instances e.2) :
    e.2[j] ∉ variationIdxs instances groups := by
  intro hmem
  rw [variationIdxs, List.mem_flatMap] at hmem
  obtain ⟨e', he', hmem⟩ := hmem
  rw [List.mem_filterMap] at hmem
  obtain ⟨p, hp, hpe⟩ := hmem
  split_ifs at hpe with hpex
  have hpv : p.2 = e.2[j] := Option.some.inj hpe
  have hp' : e'.2[p.1]? = some p.2 := List.mem_enum_iff_getElem?.mp hp
  have hmem2 : p.2 ∈ e'.2 := List.getElem?_mem hp'
  have hee : e = e' :=
    flatMap_nodup_entry_unique hnd he he' (List.getElem_mem hj) (hpv ▸ hmem2)
  rw [← hee] at hpex hp'
  have hlt : p.1 < e.2.length := (List.getElem?_eq_some_iff.mp hp').1
  have hnde : e.2.Nodup := flatMap_nodup_entry hnd he
  have heq : e.2[p.1]? = e.2[j]? := by
    rw [hp', List.getElem?_eq_getElem hj, hpv]
  exact hpex ((List.getElem?_inj hlt hnde heq).trans hex)

lemma clusterAssign_length (instances : List MotifInstance)
    (assigns : List (ℕ × String)) (flagged : List ℕ) :
    (clusterAssign instances assigns flagged).length = instances.length := by
  rw [clusterAssign, List.length_map, List.enum_length]

/-- The instance the mutation loop leaves at index `i`. -/
lemma clusterAssign_getElem? {instances : List MotifInstance}
    (assigns : List (ℕ × String)) (flagged : List ℕ) {i : ℕ}
    (hi : i < instances.length) :
    (clusterAssign instances assigns flagged)[i]? =
      some { instances[i] with
        group_id := match (assigns.find? fun a => a.1 = i) with
                    | some a => some a.2
                    | none => instances[i].group_id
        is_variation := instances[i].is_variation || flagged.contains i } := by
  rw [clusterAssign, List.getElem?_map, List.getElem?_enum,
    List.getElem?_eq_getElem hi]
  rfl

lemma clusterAssign_getD {instances : List MotifInstance}
    (assigns : List (ℕ × String)) (flagged : List ℕ) {i : ℕ}
    (hi : i < instances.length) :
    (clusterAssign instances assigns flagged).getD i default =
      { instances[i] with
        group_id := match (assigns.find? fun a => a.1 = i) with
                    | some a => some a.2
                    | none => instances[i].group_id
        is_variation := instances[i].is_variation || flagged.contains i } := by
  rw [List.getD_eq_getElem?_getD, clusterAssign_getElem? assigns flagged hi]
  rfl

/-- In-range index lookups never drop elements, so the member lookup is a
plain `map`. -/
lemma filterMap_get?_eq_map {α : Type} [Inhabited α] (F : List α) :
    ∀ (idxs : List ℕ), (∀ i ∈ idxs, i < F.length) →
      idxs.filterMap (fun i => F.get? i) = idxs.map (fun i => F.getD i default)
  | [], _ => rfl
  | i :: rest, h => by
      have hi : i < F.length := h i (List.mem_cons_self _ _)
      have hsome : F.get? i = some (F.getD i default) := by
        rw [List.get?_eq_getElem?, List.getElem?_eq_getElem hi,
          List.getD_eq_getElem F default hi]
      rw [List.filterMap_cons_some hsome, List.map_cons,
        filterMap_get?_eq_map F rest (fun x hx => h x (List.mem_cons_of_mem _ hx))]

/-- Every produced `MotifGroup` comes from a non-empty `groups` entry. -/
lemma clusterGroups_mem {F : List MotifInstance}
    {groups : List (String × List ℕ)} {g : MotifGroup}
    (hg : g ∈ clusterGroups F groups) :
    ∃ e ∈ groups, e.2 ≠ [] ∧ g.id = e.1 ∧
      g.members = e.2.filterMap (fun i => F.get? i) := by
  rw [clusterGroups, List.mem_filterMap] at hg
  obtain ⟨e, he, hfe⟩ := hg
  split_ifs at hfe with hemp
  have hg' := Option.some.inj hfe
  subst hg'
  refine ⟨e, he, ?_, rfl, rfl⟩
  intro hnil
  rw [hnil] at hemp
  exact hemp rfl

lemma featOf_eq {instances : List MotifInstance} {i : ℕ}
    (hi : i < instances.length) :
    featOf instances i = instances[i].features := by
  rw [featOf, List.get?_eq_getElem?, List.getElem?_eq_getElem hi]
  rfl

/-- `np.argmin` over a non-empty group's centroid distances: in range, and
first-minimal. -/
lemma groupExemplar_spec (instances : List MotifInstance) :
    ∀ (idxs : List ℕ), idxs ≠ [] →
      groupExemplar instances idxs < idxs.length ∧
      ∀ j, j < idxs.length →
        (idxs.map fun i => distSq (featOf instances i)
            (centroidOf (idxs.map (featOf instances)))).getD
          (groupExemplar instances idxs) 0 ≤
        (idxs.map fun i => distSq (featOf instances i)
            (centroidOf (idxs.map (featOf instances)))).getD j 0
  | [], hne => absurd rfl hne
  | a :: l, _ => by
      rw [groupExemplar, List.map_cons]
      obtain ⟨h1, h2⟩ := pyArgmin_spec
        (distSq (featOf instances a) (centroidOf ((a :: l).map (featOf instances))))
        (l.map fun i => distSq (featOf instances i)
          (centroidOf ((a :: l).map (featOf instances))))
      constructor
      · simpa using h1
      · intro j hj
        exact h2 j (by simpa using hj)

/-- The heart of C7: every group built from a non-empty entry of a
well-formed `groups` dict has an exemplar member that minimises the centroid
distance and stays unflagged, while every other member is flagged. -/
lemma exemplar_of_entry {instances : List MotifInstance}
    {assigns : List (ℕ × String)} {groups : List (String × List ℕ)}
    (hnd : ((groups.flatMap (·.2)).Nodup))
    (hbound : ∀ i ∈ groups.flatMap (·.2), i < instances.length)
    (hfresh : ∀ inst ∈ instances, inst.is_variation = false)
    {e : String × List ℕ} (he : e ∈ groups) (hene : e.2 ≠ [])
    {members : List MotifInstance}
    (hmembers : members = e.2.filterMap
      (fun i => (clusterAssign instances assigns
        (variationIdxs instances groups)).get? i)) :
    members ≠ [] ∧
    ∃ ex : Fin members.length,
      (members.get ex).is_variation = false ∧
      (∀ j : Fin members.length,
        distSq (members.get ex).features
            (centroidOf (members.map (·.features))) ≤
          distSq (members.get j).features
            (centroidOf (members.map (·.features)))) ∧
      (∀ j : Fin members.length, j ≠ ex →
        (members.get j).is_variation = true) := by
  have hbnd : ∀ i ∈ e.2, i < instances.length := fun i hi =>
    hbound i (List.mem_flatMap.mpr ⟨e, he, hi⟩)
  have hbndF : ∀ i ∈ e.2, i <
      (clusterAssign instances assigns (variationIdxs instances groups)).length :=
    fun i hi => (clusterAssign_length instances assigns
      (variationIdxs instances groups)).symm ▸ hbnd i hi
  have hmap : members = e.2.map (fun i =>
      (clusterAssign instances assigns
        (variationIdxs instances groups)).getD i default) := by
    rw [hmembers]
    exact filterMap_get?_eq_map _ e.2 hbndF
  have hmlen : members.length = e.2.length := by
    rw [hmap, List.length_map]
  have hmne : members ≠ [] := by
    rw [hmap]
    intro h
    exact hene (List.map_eq_nil_iff.mp h)
  have hmemD : ∀ j, (hj : j < e.2.length) →
      members.getD j default =
        (clusterAssign instances assigns
          (variationIdxs instances groups)).getD e.2[j] default := by
    intro j hj
    conv_lhs => rw [hmap]
    rw [List.getD_eq_getElem _ _ (by rw [List.length_map]; exact hj),
      List.getElem_map]
  have hgetD : ∀ j : Fin members.length, members.get j = members.getD j.1 default := by
    intro j
    rw [List.get_eq_getElem, List.getD_eq_getElem members default j.2]
  have hfeatD : ∀ j, (hj : j < e.2.length) →
      (members.getD j default).features = featOf instances e.2[j] := by
    intro j hj
    rw [hmemD j hj,
      clusterAssign_getD assigns (variationIdxs instances groups)
        (hbnd _ (List.getElem_mem hj))]
    rw [featOf_eq (hbnd _ (List.getElem_mem hj))]
  have hfeat : members.map (·.features) = e.2.map (featOf instances) := by
    rw [hmap, List.map_map]
    apply List.map_congr_left
    intro i hi
    have hilt := hbnd i hi
    show ((clusterAssign instances assigns
      (variationIdxs instances groups)).getD i default).features = featOf instances i
    rw [clusterAssign_getD assigns (variationIdxs instances groups) hilt,
      featOf_eq hilt]
  obtain ⟨hexlt, hexmin⟩ := groupExemplar_spec instances e.2 hene
  have hdsval : ∀ j, (hj : j < e.2.length) →
      (e.2.map fun i => distSq (featOf instances i)
          (centroidOf (e.2.map (featOf instances)))).getD j 0 =
        distSq ((members.getD j default).features)
          (centroidOf (e.2.map (featOf instances))) := by
    intro j hj
    rw [List.getD_eq_getElem _ _ (by rw [List.length_map]; exact hj),
      List.getElem_map, hfeatD j hj]
  refine ⟨hmne, ⟨groupExemplar instances e.2, by rw [hmlen]; exact hexlt⟩, ?_, ?_, ?_⟩
  · rw [hgetD, hmemD _ hexlt,
      clusterAssign_getD assigns (variationIdxs instances groups)
        (hbnd _ (List.getElem_mem hexlt))]
    dsimp only
    rw [hfresh _ (List.getElem_mem (hbnd _ (List.getElem_mem hexlt))), Bool.false_or]
    have hnotmem := not_mem_variationIdxs hnd he hexlt rfl
    exact Bool.eq_false_iff.mpr fun habs => hnotmem (List.mem_of_elem_eq_true habs)
  · intro j
    have hj2 : j.1 < e.2.length := hmlen ▸ j.2
    rw [hfeat, hgetD, hgetD j, hfeatD _ hexlt, hfeatD j.1 hj2]
    have hle := hexmin j.1 hj2
    rw [hdsval _ hexlt, hdsval j.1 hj2, hfeatD _ hexlt, hfeatD j.1 hj2] at hle
    exact hle
  · intro j hjne
    have hj2 : j.1 < e.2.length := hmlen ▸ j.2
    rw [hgetD j, hmemD j.1 hj2,
      clusterAssign_getD assigns (variationIdxs instances groups)
        (hbnd _ (List.getElem_mem hj2))]
    dsimp only
    have hmemflag : e.2[j.1] ∈ variationIdxs instances groups :=
      mem_variationIdxs_of he hj2 (fun h => hjne (Fin.ext h))
    rw [show (variationIdxs instances groups).contains e.2[j.1] = true from
      List.elem_eq_true_of_mem hmemflag, Bool.or_true]

/-- Every returned `MotifGroup` id carries the `{stem_role}_` prefix. -/
lemma cluster_motifs_id_prefix {instances : List MotifInstance} {labels : List ℤ}
    {stem_role : String} {g : MotifGroup}
    (hg : g ∈ (cluster_motifs instances labels stem_role).2) :
    ∃ t, g.id = (stem_role ++ "_") ++ t := by
  rw [cluster_motifs] at hg
  split_ifs at hg with hemp
  · exact absurd hg (List.not_mem_nil _)
  · dsimp only at hg
    obtain ⟨e, he, -, hid, -⟩ := clusterGroups_mem hg
    obtain ⟨t, ht⟩ := (buildGroups_inv (stem_role ++ "_") labels).1.2.2 e he
    exact ⟨t, by rw [hid, ht]⟩

/-- Every instance coming out of clustering has a `group_id` (the assignment
fold covers every index when labels and instances are aligned). -/
lemma cluster_motifs_group_id_isSome {instances : List MotifInstance}
    {labels : List ℤ} {stem_role : String}
    (hlen : labels.length = instances.length) :
    ∀ inst ∈ (cluster_motifs instances labels stem_role).1,
      inst.group_id.isSome = true := by
  intro inst hmem
  rw [cluster_motifs] at hmem
  split_ifs at hmem with hemp
  · rw [List.isEmpty_iff] at hemp
    subst hemp
    exact absurd hmem (List.not_mem_nil _)
  · dsimp only at hmem
    rw [clusterAssign, List.mem_map] at hmem
    obtain ⟨p, hp, hinst⟩ := hmem
    have hp' : instances[p.1]? = some p.2 := List.mem_enum_iff_getElem?.mp hp
    have hlt : p.1 < instances.length := (List.getElem?_eq_some_iff.mp hp').1
    have hmemr : p.1 ∈ ((buildGroups (stem_role ++ "_") labels).2).map Prod.fst := by
      rw [(buildGroups_inv (stem_role ++ "_") labels).2, List.mem_range, hlen]
      exact hlt
    rw [List.mem_map] at hmemr
    obtain ⟨a, ha, hafst⟩ := hmemr
    have hfind : (((buildGroups (stem_role ++ "_") labels).2).find?
        fun x => x.1 = p.1).isSome := by
      rw [List.find?_isSome]
      exact ⟨a, ha, decide_eq_true hafst⟩
    rw [← hinst]
    dsimp only
    cases hfind' : ((buildGroups (stem_role ++ "_") labels).2).find?
        fun x => x.1 = p.1 with
    | none =>
        rw [hfind'] at hfind
        exact absurd hfind (by simp)
    | some a' =>
        rfl

/-- The data part of the exemplar property, lifted to `cluster_motifs`. -/
lemma cluster_motifs_exemplar {instances : List MotifInstance} {labels : List ℤ}
    {stem_role : String} (hlen : labels.length = instances.length)
    (hfresh : ∀ inst ∈ instances, inst.is_variation = false) :
    ∀ g ∈ (cluster_motifs instances labels stem_role).2,
      g.members ≠ [] ∧
      ∃ ex : Fin g.members.length,
        (g.members.get ex).is_variation = false ∧
        (∀ j : Fin g.members.length,
          distSq (g.members.get ex).features
              (centroidOf (g.members.map (·.features))) ≤
            distSq (g.members.get j).features
              (centroidOf (g.members.map (·.features)))) ∧
        (∀ j : Fin g.members.length, j ≠ ex →
          (g.members.get j).is_variation = true) := by
  intro g hg
  rw [cluster_motifs] at hg
  split_ifs at hg with hemp
  · exact absurd hg (List.not_mem_nil _)
  · dsimp only at hg
    obtain ⟨hWF, -⟩ := buildGroups_inv (stem_role ++ "_") labels
    obtain ⟨e, he, hene, -, hmembers⟩ := clusterGroups_mem hg
    exact exemplar_of_entry hWF.1 (fun i hi => hlen ▸ hWF.2.1 i hi) hfresh he
      hene hmembers

/-- `head?` of the underlying characters is stable under appending to a
non-empty string. -/
lemma data_head?_append {s t : String} (h : s.data ≠ []) :
    (s ++ t).data.head? = s.data.head? := by
  rw [String.data_append, List.head?_append]
  cases hd : s.data with
  | nil => exact absurd hd h
  | cons c cs => rfl

/-- **C7.**  After clustering a stem's motif instances (DBSCAN labelling
taken as input, one label per instance; instances enter the clusterer with
`is_variation = False`, as `detect_motifs` constructs them), every returned
instance has a `group_id`; every returned `MotifGroup` is non-empty and has
an exemplar member that is unflagged and minimises the (squared, hence also
plain) Euclidean distance to the centroid of the members' features, with
every other member flagged `is_variation = true`; and group ids carry the
`{stem_role}_` prefix, so groups produced for two different stem roles never
share an id (the five roles start with five distinct characters). -/
theorem C7_clustering_exemplar_and_stem_ids
    (instances : List MotifInstance) (labels : List ℤ) (stem_role : String)
    (hlen : labels.length = instances.length)
    (hfresh : ∀ inst ∈ instances, inst.is_variation = false) :
    (∀ inst ∈ (cluster_motifs instances labels stem_role).1,
      inst.group_id.isSome = true) ∧
    (∀ g ∈ (cluster_motifs instances labels stem_role).2,
      ∃ t, g.id = (stem_role ++ "_") ++ t) ∧
    (∀ g ∈ (cluster_motifs instances labels stem_role).2,
      g.members ≠ [] ∧
      ∃ ex : Fin g.members.length,
        (g.members.get ex).is_variation = false ∧
        (∀ j : Fin g.members.length,
          distSq (g.members.get ex).features
              (centroidOf (g.members.map (·.features))) ≤
            distSq (g.members.get j).features
              (centroidOf (g.members.map (·.features)))) ∧
        (∀ j : Fin g.members.length, j ≠ ex →
          (g.members.get j).is_variation = true)) ∧
    (∀ r1 ∈ motifStemRoles, ∀ r2 ∈ motifStemRoles, r1 ≠ r2 →
      ∀ (instances1 instances2 : List MotifInstance)
        (labels1 labels2 : List ℤ),
        ∀ g1 ∈ (cluster_motifs instances1 labels1 r1).2,
          ∀ g2 ∈ (cluster_motifs instances2 labels2 r2).2, g1.id ≠ g2.id) := by
  refine ⟨cluster_motifs_group_id_isSome hlen,
    fun g hg => cluster_motifs_id_prefix hg,
    cluster_motifs_exemplar hlen hfresh, ?_⟩
  have hnonnil : ∀ r ∈ motifStemRoles, r.data ≠ [] := by decide
  have hhead : ∀ r1 ∈ motifStemRoles, ∀ r2 ∈ motifStemRoles,
      r1 ≠ r2 → r1.data.head? ≠ r2.data.head? := by decide
  intro r1 hr1 r2 hr2 hne instances1 instances2 labels1 labels2 g1 hg1 g2 hg2 heq
  obtain ⟨t1, ht1⟩ := cluster_motifs_id_prefix hg1
  obtain ⟨t2, ht2⟩ := cluster_motifs_id_prefix hg2
  apply hhead r1 hr1 r2 hr2 hne
  have hd1 : g1.id.data.head? = r1.data.head? := by
    rw [ht1, String.append_assoc, data_head?_append (hnonnil r1 hr1)]
  have hd2 : g2.id.data.head? = r2.data.head? := by
    rw [ht2, String.append_assoc, data_head?_append (hnonnil r2 hr2)]
  rw [← hd1, ← hd2, heq]

/-- Concrete clustering input for the C7 witness: three fresh drums motifs
with one-dimensional features, two clustered together and one noise point. -/
def c7A : MotifInstance :=
  { id := "motif_drums_0000", stem_role := "drums", start_time := 0,
    end_time := 1, features := [0] }

def c7B : MotifInstance :=
  { id := "motif_drums_0001", stem_role := "drums", start_time := 2,
    end_time := 3, features := [2] }

def c7C : MotifInstance :=
  { id := "motif_drums_0002", stem_role := "drums", start_time := 4,
    end_time := 5, features := [10] }

def c7Instances : List MotifInstance := [c7A, c7B, c7C]

def c7Labels : List ℤ := [0, 0, -1]

/-- Witness for C7 at the concrete input: the hypotheses hold and the
theorem applies. -/
theorem C7_clustering_exemplar_and_stem_ids_witness :
    (c7Labels.length = c7Instances.length ∧
      ∀ inst ∈ c7Instances, inst.is_variation = false) ∧
    ((∀ inst ∈ (cluster_motifs c7Instances c7Labels "drums").1,
        inst.group_id.isSome = true) ∧
      (∀ g ∈ (cluster_motifs c7Instances c7Labels "drums").2,
        ∃ t, g.id = ("drums" ++ "_") ++ t) ∧
      (∀ g ∈ (cluster_motifs c7Instances c7Labels "drums").2,
        g.members ≠ [] ∧
        ∃ ex : Fin g.members.length,
          (g.members.get ex).is_variation = false ∧
          (∀ j : Fin g.members.length,
            distSq (g.members.get ex).features
                (centroidOf (g.members.map (·.features))) ≤
              distSq (g.members.get j).features
                (centroidOf (g.members.map (·.features)))) ∧
          (∀ j : Fin g.members.length, j ≠ ex →
            (g.members.get j).is_variation = true)) ∧
      (∀ r1 ∈ motifStemRoles, ∀ r2 ∈ motifStemRoles, r1 ≠ r2 →
        ∀ (instances1 instances2 : List MotifInstance)
          (labels1 labels2 : List ℤ),
          ∀ g1 ∈ (cluster_motifs instances1 labels1 r1).2,
            ∀ g2 ∈ (cluster_motifs instances2 labels2 r2).2,
              g1.id ≠ g2.id)) :=
  ⟨⟨rfl, by
      intro inst h
      simp only [c7Instances, List.mem_cons, List.not_mem_nil, or_false] at h
      rcases h with rfl | rfl | rfl <;> rfl⟩,
    C7_clustering_exemplar_and_stem_ids c7Instances c7Labels "drums" rfl
      (by
        intro inst h
        simp only [c7Instances, List.mem_cons, List.not_mem_nil, or_false] at h
        rcases h with rfl | rfl | rfl <;> rfl)⟩

end LoopExpander
